import Mathlib

/-!
Verification of the reconciliation engine of `toggl_sheet_sync.py`.

The development shallowly embeds the program: timestamps are seconds
since an epoch (`Nat`), the process-wide local timezone handle is an
explicit offset in seconds threaded through the functions, machine
integers are `Nat`/`Int`, fallible code returns `Except String`.  The
spreadsheet store is modelled as a grid of string-valued cells; writing
a cell value applies the store conversion (`storeCell`): integers render
in decimal, Python `None` renders as the empty cell, and a string
beginning with the literal text marker has that marker consumed by the
store.  The calendar rendering of a date (`strftime`, a library call) is
abstracted to an injective decimal label of the epoch day, and the
remote paginated query (an external collaborator) is modelled as a
start-windowed view of a fixed entry list capped at the page ceiling.
-/

/-! ## Decimal rendering and parsing (mirror of Python `str`/`int` on integers) -/

/-- The ten decimal digit characters, as produced by Python `str`. -/
def digitChar : Nat → Char
  | 0 => '0' | 1 => '1' | 2 => '2' | 3 => '3' | 4 => '4'
  | 5 => '5' | 6 => '6' | 7 => '7' | 8 => '8' | _ => '9'

/-- Numeric value of a digit character. -/
def digitVal (c : Char) : Nat := c.toNat - 48

/-- Digit list of a positive number, most significant first (fuel-based). -/
def natToStringAux : Nat → Nat → List Char
  | 0, _ => []
  | fuel+1, n => if n = 0 then [] else natToStringAux fuel (n / 10) ++ [digitChar (n % 10)]

/-- Decimal rendering of a natural number, as Python `str` renders it. -/
def natToString (n : Nat) : String := if n = 0 then "0" else String.mk (natToStringAux n n)

/-- Decimal rendering of an integer, as Python `str` renders it. -/
def intToString : Int → String
  | Int.ofNat n => natToString n
  | Int.negSucc n => "-" ++ natToString (n+1)

/-- Python `int(s)` on a cell holding an unsigned decimal string
(whitespace laxity of Python is not modelled; junk gives `none`,
which the embedding maps to the `ValueError` the program raises). -/
def parseNat (s : String) : Option Nat :=
  if s.data ≠ [] ∧ s.data.all Char.isDigit then
    Option.some (s.data.foldl (fun a c => a * 10 + digitVal c) 0)
  else Option.none

/-- Python `int(s)` on a possibly sign-bearing decimal string. -/
def parseInt (s : String) : Option Int :=
  match s.data with
  | [] => Option.none
  | c :: rest =>
    if c = '-' then (parseNat (String.mk rest)).map (fun n => -(n : Int))
    else (parseNat s).map (fun n => (n : Int))

/-! ## The text marker and the cell store conversion -/

/-- The literal text marker character (unicode 39) that the program puts
in front of text fields to force text interpretation by the store. -/
def apos : Char := Char.ofNat 39

/-- The text marker as a one-character string. -/
def marker : String := String.mk [apos]

/-- Store conversion of a string cell value: the destination consumes a
leading text marker. -/
def storeStr (s : String) : String :=
  match s.data with
  | [] => s
  | c :: rest => if c = apos then String.mk rest else s

/-! ## Time and date formatting -/

/-- Zero-padded two-digit rendering, as `strftime` with a width-2 field. -/
def pad2 (n : Nat) : String := if n < 10 then "0" ++ natToString n else natToString n

/-- Python `str.lstrip` with the single character 0: drops every leading
zero character. -/
def lstripZero : List Char → List Char
  | [] => []
  | c :: rest => if c = '0' then lstripZero rest else c :: rest

/-- `format_time` (source lines 53-55): renders a local wall-clock hour
and minute the way the source does: `strftime` gives the padded HH:MM,
all leading zero characters are stripped, and a single zero is put back
when the result begins with the colon. -/
def format_time (h m : Nat) : String :=
  let s := lstripZero ((pad2 h).data ++ ':' :: (pad2 m).data)
  match s with
  | [] => ""
  | c :: rest => if c = ':' then String.mk ('0' :: c :: rest) else String.mk (c :: rest)

/-- The `%Y-%m-%d` rendering of a date, abstracted to an injective
decimal label of the epoch day (the calendar arithmetic of the datetime
library is outside the program). -/
def dayLabel (epochDay : Nat) : String := natToString epochDay

/-- Duration rendering (source line 74): Python
`percent-d:percent-02d of divmod(duration // 60, 60)` with floor
division and floor remainder, hours unbounded, minutes zero-padded. -/
def durationStr (d : Int) : String :=
  intToString ((d.fdiv 60).fdiv 60) ++ ":" ++ pad2 ((d.fdiv 60).fmod 60).toNat

/-- `start_of_week` (source lines 96-98): the date minus its weekday
offset, Monday-anchored.  Days are counted from an epoch whose day 0 is
a Thursday, so the weekday offset of day `d` is `(d + 3) mod 7`. -/
def start_of_week (d : Nat) : Nat := d - ((d + 3) % 7)

/-! ## Data model -/

/-- A raw record of the record source: fields `id, start, stop,
duration, pid, description` of a time entry.  `start`/`stop` are UTC
timestamps in whole seconds. -/
structure TimeEntry where
  id : Nat
  start : Nat
  stop : Nat
  duration : Int
  pid : Option Nat
  description : String
deriving DecidableEq

/-- A project of the record source: `id`, optional client id `cid`, and
name. -/
structure ProjectRec where
  id : Nat
  cid : Option Nat
  name : String
deriving DecidableEq

/-- The fixed header schema of a month sheet (source line 50). -/
inductive Header
  | Date | toggl_id | Start | End | Project | Description | Duration
deriving DecidableEq

/-- `SHEET_HEADERS` in fixed order. -/
def SHEET_HEADERS : List Header :=
  [Header.Date, Header.toggl_id, Header.Start, Header.End,
   Header.Project, Header.Description, Header.Duration]

/-- The header names, as written to row 1 of a month sheet. -/
def SHEET_HEADER_NAMES : List String :=
  ["Date", "toggl_id", "Start", "End", "Project", "Description", "Duration"]

/-- The summary sheet header names (source line 51). -/
def SUMMARY_HEADERS : List String := ["Period", "Days Worked", "Total Hours"]

/-- A Python value as staged into a cell: `None`, an `int`, or a `str`. -/
inductive PyVal
  | none | int (i : Int) | str (s : String)
deriving DecidableEq

/-- Store conversion applied when a staged value is written to the
destination and read back: `None` becomes the empty cell, integers
render in decimal, and strings lose a leading text marker. -/
def storeCell : PyVal → String
  | PyVal.none => ""
  | PyVal.int i => intToString i
  | PyVal.str s => storeStr s

instance {ε α : Type} [DecidableEq ε] [DecidableEq α] : DecidableEq (Except ε α) := fun x y =>
  match x, y with
  | Except.error a, Except.error b =>
    if h : a = b then Decidable.isTrue (by rw [h])
    else Decidable.isFalse (fun hc => h (Except.error.inj hc))
  | Except.ok a, Except.ok b =>
    if h : a = b then Decidable.isTrue (by rw [h])
    else Decidable.isFalse (fun hc => h (Except.ok.inj hc))
  | Except.error _, Except.ok _ => Decidable.isFalse (fun hc => Except.noConfusion hc)
  | Except.ok _, Except.error _ => Decidable.isFalse (fun hc => Except.noConfusion hc)

/-- The canonical row produced by `entry_to_sheet_row`, with the Python
type of each field: ids are ints, a record lacking a project maps
Project to `None`. -/
structure SheetRow where
  Date : String
  toggl_id : Int
  Start : String
  End : String
  Project : Option String
  Description : String
  Duration : String
deriving DecidableEq

/-- The staged Python value of a canonical row at one header. -/
def rowVal (r : SheetRow) : Header → PyVal
  | Header.Date => PyVal.str r.Date
  | Header.toggl_id => PyVal.int r.toggl_id
  | Header.Start => PyVal.str r.Start
  | Header.End => PyVal.str r.End
  | Header.Project =>
      match r.Project with
      | Option.some s => PyVal.str s
      | Option.none => PyVal.none
  | Header.Description => PyVal.str r.Description
  | Header.Duration => PyVal.str r.Duration

/-! ## Row mapper (`entry_to_sheet_row`, source lines 57-75) -/

/-- Maps a raw record to its canonical row.  `off` is the local timezone
offset in seconds; `projects` is the external project-name lookup
(`ProjectList().find_by_id`).  Recomputes the duration as stop minus
start on local wall-clock times and fails when it differs from the
reported duration; otherwise renders the seven fields. -/
def entry_to_sheet_row (off : Nat) (projects : Nat → Option String) (e : TimeEntry) :
    Except String SheetRow :=
  let start_time := e.start + off
  let end_time := e.stop + off
  let duration : Int := (end_time : Int) - (start_time : Int)
  if duration ≠ e.duration then Except.error "Error checking duration"
  else
    let project := e.pid.bind projects
    Except.ok
      { Date := dayLabel (start_time / 86400)
        toggl_id := (e.id : Int)
        Start := format_time (start_time / 3600 % 24) (start_time / 60 % 60)
        End := format_time (end_time / 3600 % 24) (end_time / 60 % 60)
        Project := project.map (fun name => marker ++ name)
        Description := marker ++ e.description
        Duration := durationStr duration }

/-! ## Record source adapter (`get_entries`, source lines 23-42) -/

/-- The page-size ceiling of the source. -/
def page_cap : Nat := 1000

/-- Whether a record falls in the queried window (the windowed query of
the external source filters on the start timestamp). -/
def in_window (s e : Nat) (te : TimeEntry) : Bool :=
  decide (s ≤ te.start) && decide (te.start ≤ e)

/-- The external windowed query (`toggl.TimeEntryList`): the records of
the source inside the window, in source order, capped at the page-size
ceiling. -/
def query_window (src : List TimeEntry) (s e : Nat) : List TimeEntry :=
  (src.filter (in_window s e)).take page_cap

/-- The high-water mark of a page: the latest end timestamp seen in the
loop (`max_date`, source lines 32-36; it starts as Python `None`, which
every timestamp exceeds, so the fold starts at 0). -/
def max_end (page : List TimeEntry) : Nat := page.foldl (fun m te => max m te.stop) 0

/-- `valid_project_ids` (source line 29): the project ids belonging to
the given client. -/
def valid_project_ids (projects : List ProjectRec) (client_id : Nat) : List Nat :=
  (projects.filter (fun p => p.cid = Option.some client_id)).map (fun p => p.id)

/-- The per-record association filter (source line 37): with no client
every record passes; with a client only records whose project id is in
the pre-resolved set pass. -/
def entry_passes (projects : List ProjectRec) (client : Option Nat) (te : TimeEntry) : Bool :=
  match client with
  | Option.none => true
  | Option.some cid =>
      match te.pid with
      | Option.none => false
      | Option.some pid => (valid_project_ids projects cid).contains pid

/-- `get_entries`: drains the windowed query.  Yields each page filtered
per record; when a page hits the cap, resumes the query one second after
the high-water mark of the whole page.  Also returns the sequence of
start timestamps of the issued queries.  The Python loop is unbounded,
so the embedding uses fuel and returns `none` when the fuel runs out. -/
def get_entries (src : List TimeEntry) (projects : List ProjectRec) (client : Option Nat)
    (s e : Nat) : Nat → Option (List Nat × List TimeEntry)
  | 0 => Option.none
  | fuel+1 =>
    let search_list := query_window src s e
    let yielded := search_list.filter (entry_passes projects client)
    if search_list.length < page_cap then Option.some ([s], yielded)
    else
      match get_entries src projects client (max_end search_list + 1) e fuel with
      | Option.some (qs, rest) => Option.some (s :: qs, yielded ++ rest)
      | Option.none => Option.none

/-! ## Header setup (`setup_header`, source lines 81-94) -/

/-- One step per expected header, carrying the zero-based position `n`.
Returns the staged fill-in cells as pairs of column number (one-based)
and value; a non-empty differing cell raises, which discards staged
cells exactly as the Python exception does. -/
def setup_header_go (header_row : List String) (headers : List String) (n : Nat) :
    Except String (List (Nat × String)) :=
  match headers with
  | [] => Except.ok []
  | h :: rest =>
    let h_value := header_row.getD n ""
    if h_value = "" then
      (setup_header_go header_row rest (n+1)).map (fun staged => (n+1, h) :: staged)
    else if h_value ≠ h then Except.error "Header cell mismatch"
    else setup_header_go header_row rest (n+1)

/-- `setup_header`: `header_row` is the current first row of the sheet
(missing trailing cells and empty cells both read back as empty). -/
def setup_header (header_row : List String) (headers : List String) :
    Except String (List (Nat × String)) :=
  setup_header_go header_row headers 0

/-! ## Destination sheet model and index (`sync_sheets`, source lines 121-142) -/

/-- A destination sheet: data rows run from row 2 through `row_count`;
`cells` gives the current string value of each cell. -/
structure Sheet where
  row_count : Nat
  cells : Nat → Header → String

/-- The data row indices of a sheet, ascending (Python
`range(2, row_count+1)`). -/
def sheet_rows (s : Sheet) : List Nat := List.range' 2 (s.row_count - 1)

/-- The id-to-row index: external id to (row number, cached row values). -/
abbrev IdMap := Int → Option (Nat × (Header → String))

/-- One row of the index load (source lines 139-142): a row with a
non-empty id cell is parsed (`int`, raising on junk) and inserted, a
later row with the same id replacing an earlier one; the append cursor
is bumped to one past the row when the row is at or past the cursor. -/
def index_step (s : Sheet) (acc : IdMap × Nat) (r : Nat) : Except String (IdMap × Nat) :=
  if s.cells r Header.toggl_id = "" then Except.ok acc
  else
    match parseInt (s.cells r Header.toggl_id) with
    | Option.some id =>
        Except.ok
          (fun k => if k = id then Option.some (r, s.cells r) else acc.1 k,
           if r ≥ acc.2 then r + 1 else acc.2)
    | Option.none => Except.error "invalid id cell"

/-- Index load (source lines 136-142): one pass over the data rows,
ascending, starting from the empty index and append row 2. -/
def build_index (s : Sheet) : Except String (IdMap × Nat) :=
  (sheet_rows s).foldlM (index_step s) (fun _ => Option.none, 2)

/-- Whether a data row carries the given external id: its id cell is
non-empty and parses to that integer. -/
def rowHasId (s : Sheet) (r : Nat) (k : Int) : Prop :=
  s.cells r Header.toggl_id ≠ "" ∧ parseInt (s.cells r Header.toggl_id) = Option.some k

instance (s : Sheet) (r : Nat) (k : Int) : Decidable (rowHasId s r k) := by
  unfold rowHasId
  infer_instance

/-- One past the highest row of the given list whose external id cell is
non-empty, or 2 when no such row exists. -/
def next_append_over (s : Sheet) (rows : List Nat) : Nat :=
  rows.foldl (fun acc r => if s.cells r Header.toggl_id ≠ "" then max acc (r+1) else acc) 2

/-- The next append row as the spec words it: one past the highest row
index whose external id cell is non-empty, or row 2 when no such row
exists. -/
def specNextAppendRow (s : Sheet) : Nat := next_append_over s (sheet_rows s)

/-! ## Reconciler (`sync_sheets`, source lines 144-190) -/

/-- Re-derivation of the comparable form of an existing cell (source
lines 158-163): the id cell is compared as an integer (raising on junk),
Project and Description get the text marker put back when non-empty, and
every other cell is compared as the string it holds. -/
def derived_cell (h : Header) (cell_value : String) : Except String PyVal :=
  match h with
  | Header.toggl_id =>
      match parseInt cell_value with
      | Option.some i => Except.ok (PyVal.int i)
      | Option.none => Except.error "invalid id cell"
  | Header.Project =>
      Except.ok (PyVal.str (if cell_value = "" then cell_value else marker ++ cell_value))
  | Header.Description =>
      Except.ok (PyVal.str (if cell_value = "" then cell_value else marker ++ cell_value))
  | _ => Except.ok (PyVal.str cell_value)

/-- Field-by-field comparison of the canonical row against the cached
row (source lines 157-169): returns the changed headers with the staged
value, in header order. -/
def compare_row (sheet_values : SheetRow) (sheet_row : Header → String) :
    Except String (List (Header × PyVal)) :=
  SHEET_HEADERS.foldlM
    (fun acc h => do
      let dv ← derived_cell h (sheet_row h)
      if dv ≠ rowVal sheet_values h then Except.ok (acc ++ [(h, rowVal sheet_values h)])
      else Except.ok acc)
    []

/-- Bucket accumulation (`setdefault` plus `+=`): adds a duration to the
bucket of the key, creating it at the end when absent. -/
def add_duration (buckets : List (Nat × Int)) (k : Nat) (d : Int) : List (Nat × Int) :=
  match buckets with
  | [] => [(k, d)]
  | (k2, v) :: rest =>
      if k2 = k then (k2, v + d) :: rest else (k2, v) :: add_duration rest k d

/-- The reconciler state inside one month pass: the loaded index, the
append cursor, the staged cell writes (row, header, staged value), the
three counters, and the running weekly and monthly buckets. -/
structure SyncState where
  map : IdMap
  append_row : Nat
  update_cells : List (Nat × Header × PyVal)
  added : Nat
  updated : Nat
  unchanged : Nat
  summary_weeks : List (Nat × Int)
  summary_months : List (Nat × Int)

/-- One iteration of the per-record loop (source lines 144-181):
accumulate the record into the week and month buckets, map it to the
canonical row, then update an indexed row field-by-field or stage a full
append at the cursor. -/
def sync_entry (off : Nat) (projects : Nat → Option String) (month : Nat)
    (st : SyncState) (e : TimeEntry) : Except String SyncState := do
  let week := start_of_week ((e.start + off) / 86400)
  let st := { st with
              summary_weeks := add_duration st.summary_weeks week e.duration
              summary_months := add_duration st.summary_months month e.duration }
  let sheet_values ← entry_to_sheet_row off projects e
  match st.map (e.id : Int) with
  | Option.some (row, sheet_row) => do
      let diffs ← compare_row sheet_values sheet_row
      if diffs ≠ [] then
        Except.ok { st with
                    update_cells := st.update_cells ++ diffs.map (fun p => (row, p.1, p.2))
                    updated := st.updated + 1 }
      else Except.ok { st with unchanged := st.unchanged + 1 }
  | Option.none =>
      Except.ok { st with
                  update_cells := st.update_cells ++
                    SHEET_HEADERS.map (fun h => (st.append_row, h, rowVal sheet_values h))
                  added := st.added + 1
                  append_row := st.append_row + 1 }

/-- Writing one staged cell to the destination: the store conversion is
applied and the sheet grows to cover the written row. -/
def apply_write (s : Sheet) (w : Nat × Header × PyVal) : Sheet :=
  { row_count := max s.row_count w.1
    cells := fun r h => if r = w.1 ∧ h = w.2.1 then storeCell w.2.2 else s.cells r h }

/-- Flushing staged cells.  The program flushes in bounded batches (over
250 staged cells) and once at the end; comparisons are served from the
pre-run cache throughout, so the final sheet equals the original with
every staged write applied in order. -/
def apply_writes (s : Sheet) (ws : List (Nat × Header × PyVal)) : Sheet :=
  ws.foldl apply_write s

/-- The staged writes of a list that target one cell, in order. -/
def writes_at (ws : List (Nat × Header × PyVal)) (r : Nat) (h : Header) :
    List (Nat × Header × PyVal) :=
  ws.filter (fun w => decide (w.1 = r) && decide (w.2.1 = h))

/-- One month reconciliation pass (source lines 114-190): load the
index, fold the per-record step over the fetched records, flush the
staged writes. -/
def sync_month (off : Nat) (projects : Nat → Option String) (month : Nat)
    (sheet : Sheet) (entries : List TimeEntry) : Except String (Sheet × SyncState) := do
  let (map0, append0) ← build_index sheet
  let st0 : SyncState :=
    { map := map0, append_row := append0, update_cells := []
      added := 0, updated := 0, unchanged := 0
      summary_weeks := [], summary_months := [] }
  let stF ← entries.foldlM (sync_entry off projects month) st0
  Except.ok (apply_writes sheet stF.update_cells, stF)

/-! ## Aggregate writer (source lines 191-209) -/

/-- Flushing the final buckets: the bucket items sorted ascending by
key, one destination row per bucket holding the period label and the
total duration rendered with the text marker in front (source lines
197-201 and 203-208; the Days Worked column is left untouched). -/
def flush_summary (lbl : Nat → String) (buckets : List (Nat × Int)) :
    List (String × String) :=
  (buckets.mergeSort (fun a b => decide (a.1 ≤ b.1))).map
    (fun p => (lbl p.1, marker ++ durationStr p.2))

/-! ## Lemmas: decimal rendering and parsing -/

theorem digitVal_digitChar {d : Nat} (h : d < 10) : digitVal (digitChar d) = d := by
  interval_cases d <;> decide

theorem isDigit_digitChar {d : Nat} (h : d < 10) : (digitChar d).isDigit = true := by
  interval_cases d <;> decide

theorem natToStringAux_all_digits (fuel n : Nat) :
    ∀ c ∈ natToStringAux fuel n, c.isDigit = true := by
  induction fuel generalizing n with
  | zero => intro c hc; simp [natToStringAux] at hc
  | succ fuel ih =>
    intro c hc
    unfold natToStringAux at hc
    by_cases h : n = 0
    · simp [h] at hc
    · simp [h, List.mem_append] at hc
      rcases hc with hc | hc
      · exact ih _ _ hc
      · rw [hc]; exact isDigit_digitChar (Nat.mod_lt n (by omega))

theorem natToStringAux_foldl (fuel : Nat) :
    ∀ n acc, n ≤ fuel →
      (natToStringAux fuel n).foldl (fun a c => a * 10 + digitVal c) acc =
        acc * 10 ^ (natToStringAux fuel n).length + n := by
  induction fuel with
  | zero => intro n acc h; interval_cases n; simp [natToStringAux]
  | succ fuel ih =>
    intro n acc h
    unfold natToStringAux
    by_cases h0 : n = 0
    · simp [h0]
    · have hle : n / 10 ≤ fuel := by
        have : n / 10 < n := Nat.div_lt_self (Nat.pos_of_ne_zero h0) (by omega)
        omega
      simp only [h0, if_false, List.foldl_append, List.length_append, List.foldl_cons,
        List.foldl_nil, List.length_cons, List.length_nil]
      rw [ih _ acc hle, digitVal_digitChar (Nat.mod_lt n (by omega))]
      have hnm : 10 * (n / 10) + n % 10 = n := Nat.div_add_mod n 10
      rw [pow_succ]
      ring_nf
      omega

theorem natToStringAux_ne_nil {n : Nat} (h : n ≠ 0) : natToStringAux n n ≠ [] := by
  rcases n with _ | m
  · exact absurd rfl h
  · unfold natToStringAux
    simp [h]

theorem parseNat_natToString (n : Nat) : parseNat (natToString n) = Option.some n := by
  by_cases h : n = 0
  · subst h; decide
  · unfold natToString parseNat
    simp only [h, if_false]
    have hne : natToStringAux n n ≠ [] := natToStringAux_ne_nil h
    have hdig : (natToStringAux n n).all Char.isDigit = true := by
      rw [List.all_eq_true]
      exact natToStringAux_all_digits n n
    rw [if_pos (show (String.mk (natToStringAux n n)).data ≠ [] ∧
          (String.mk (natToStringAux n n)).data.all Char.isDigit = true from ⟨hne, hdig⟩)]
    show Option.some ((natToStringAux n n).foldl (fun a c => a * 10 + digitVal c) 0) =
      Option.some n
    rw [natToStringAux_foldl n n 0 le_rfl]
    simp

theorem natToString_head_digit (n : Nat) :
    ∀ c rest, (natToString n).data = c :: rest → c.isDigit = true := by
  intro c rest h
  by_cases h0 : n = 0
  · subst h0
    have : c = '0' := by
      have h2 : natToString 0 = "0" := rfl
      rw [h2] at h
      exact (by simpa using congrArg (fun l => l.headD ' ') h : '0' = c).symm
    rw [this]; decide
  · unfold natToString at h
    simp only [h0, if_false, String.mk] at h
    have : c ∈ natToStringAux n n := by rw [h]; exact List.mem_cons_self _ _
    exact natToStringAux_all_digits n n c this

theorem parseInt_natToString (n : Nat) : parseInt (natToString n) = Option.some (n : Int) := by
  unfold parseInt
  rcases hd : (natToString n).data with _ | ⟨c, rest⟩
  · exfalso
    by_cases h0 : n = 0
    · subst h0; simp [natToString] at hd
    · unfold natToString at hd
      simp only [h0, if_false, String.mk] at hd
      exact natToStringAux_ne_nil h0 hd
  · have hc : c.isDigit = true := natToString_head_digit n c rest hd
    have hne : c ≠ '-' := by
      intro hcontra; rw [hcontra] at hc; simp [Char.isDigit] at hc
    simp only [hne, if_false]
    have h2 : parseNat (natToString n) = Option.some n := parseNat_natToString n
    rw [h2]
    rfl

theorem natToString_data_ne_nil (n : Nat) : (natToString n).data ≠ [] := by
  by_cases h0 : n = 0
  · subst h0; decide
  · unfold natToString
    simp only [h0, if_false, String.mk]
    exact natToStringAux_ne_nil h0

/-! ## Lemmas: the store conversion -/

theorem mk_append (a b : List Char) : String.mk a ++ String.mk b = String.mk (a ++ b) := rfl

theorem data_append (a b : String) : (a ++ b).data = a.data ++ b.data := rfl

theorem storeStr_marker (s : String) : storeStr (marker ++ s) = s := by
  show storeStr (String.mk (apos :: s.data)) = s
  unfold storeStr
  simp

theorem storeStr_of_head_ne (s : String) (h : ∀ rest, s.data ≠ apos :: rest) :
    storeStr s = s := by
  unfold storeStr
  rcases hd : s.data with _ | ⟨c, rest⟩
  · rfl
  · have : c ≠ apos := fun hc => h rest (by rw [hd, hc])
    simp [this]

theorem natToString_head_ne_apos (n : Nat) : ∀ rest, (natToString n).data ≠ apos :: rest := by
  intro rest h
  have := natToString_head_digit n apos rest h
  revert this
  decide

theorem intToString_head_ne_apos (i : Int) : ∀ rest, (intToString i).data ≠ apos :: rest := by
  intro rest h
  cases i with
  | ofNat n => exact natToString_head_ne_apos n rest h
  | negSucc n =>
    have : (intToString (Int.negSucc n)).data = '-' :: (natToString (n+1)).data := rfl
    rw [this] at h
    have : '-' = apos := (List.cons_eq_cons.mp h).1
    revert this
    decide

theorem storeStr_intToString (i : Int) : storeStr (intToString i) = intToString i :=
  storeStr_of_head_ne _ (intToString_head_ne_apos i)

/-! ## Lemmas: time formatting -/

theorem format_time_unpadded (h m : Nat) (hh : h < 24) :
    format_time h m = natToString h ++ ":" ++ pad2 m := by
  interval_cases h <;> rfl

theorem intToString_data_ne_nil (i : Int) : (intToString i).data ≠ [] := by
  cases i with
  | ofNat n => exact natToString_data_ne_nil n
  | negSucc n =>
    intro h
    have : (intToString (Int.negSucc n)).data = '-' :: (natToString (n+1)).data := rfl
    rw [this] at h
    exact List.cons_ne_nil _ _ h

theorem append_head_ne_apos (a b : String) (ha : a.data ≠ [])
    (hne : ∀ rest, a.data ≠ apos :: rest) : ∀ rest, (a ++ b).data ≠ apos :: rest := by
  intro rest h
  rcases hd : a.data with _ | ⟨c, cs⟩
  · exact ha hd
  · rw [data_append, hd] at h
    have hc : c = apos := (List.cons_eq_cons.mp h).1
    exact hne cs (by rw [hd, hc])

theorem append_data_ne_nil (a b : String) (ha : a.data ≠ []) : (a ++ b).data ≠ [] := by
  rw [data_append]
  intro h
  exact ha (List.append_eq_nil.mp h).1

theorem durationStr_head_ne_apos (d : Int) : ∀ rest, (durationStr d).data ≠ apos :: rest := by
  unfold durationStr
  exact append_head_ne_apos _ _
    (append_data_ne_nil _ _ (intToString_data_ne_nil _))
    (append_head_ne_apos _ _ (intToString_data_ne_nil _) (intToString_head_ne_apos _))

theorem format_time_head_ne_apos (h m : Nat) (hh : h < 24) :
    ∀ rest, (format_time h m).data ≠ apos :: rest := by
  rw [format_time_unpadded h m hh]
  exact append_head_ne_apos _ _
    (append_data_ne_nil _ _ (natToString_data_ne_nil _))
    (append_head_ne_apos _ _ (natToString_data_ne_nil _) (natToString_head_ne_apos _))

/-! ## Lemmas: the row mapper -/

theorem entry_to_sheet_row_eq (off : Nat) (projects : Nat → Option String) (e : TimeEntry) :
    entry_to_sheet_row off projects e =
      if (e.stop : Int) - (e.start : Int) ≠ e.duration then
        Except.error "Error checking duration"
      else
        Except.ok
          { Date := dayLabel ((e.start + off) / 86400)
            toggl_id := (e.id : Int)
            Start := format_time ((e.start + off) / 3600 % 24) ((e.start + off) / 60 % 60)
            End := format_time ((e.stop + off) / 3600 % 24) ((e.stop + off) / 60 % 60)
            Project := (e.pid.bind projects).map (fun name => marker ++ name)
            Description := marker ++ e.description
            Duration := durationStr ((e.stop : Int) - (e.start : Int)) } := by
  unfold entry_to_sheet_row
  have hdur : ((e.stop + off : Nat) : Int) - ((e.start + off : Nat) : Int) =
      (e.stop : Int) - (e.start : Int) := by push_cast; ring
  simp only [hdur]

/-! ## Claim C4: hour formatting -/

/-- Claim C4, counterexample: a record starting at 09:00 local time maps
to Start `9:00`, not to the zero-padded `09:00` the claim states. -/
theorem C4_hour_format_counterexample :
    entry_to_sheet_row 0 (fun _ => Option.none)
        { id := 100, start := 32400, stop := 37800, duration := 5400,
          pid := Option.none, description := "work" } =
      Except.ok
        { Date := dayLabel 0, toggl_id := 100, Start := "9:00", End := "10:30",
          Project := Option.none, Description := marker ++ "work", Duration := "1:30" }
    ∧ ("9:00" : String) ≠ "09:00" := by
  constructor
  · rfl
  · decide

/-- Claim C4 as amended: the Start and End fields of a canonical row are
24-hour local wall-clock values with the minute zero-padded to two
digits but the hour rendered without padding (the program strips the
leading zero that `strftime` produces). -/
theorem C4_hour_format (off : Nat) (projects : Nat → Option String) (e : TimeEntry)
    (r : SheetRow) (hok : entry_to_sheet_row off projects e = Except.ok r) :
    r.Start = natToString ((e.start + off) / 3600 % 24) ++ ":" ++ pad2 ((e.start + off) / 60 % 60)
    ∧ r.End = natToString ((e.stop + off) / 3600 % 24) ++ ":" ++ pad2 ((e.stop + off) / 60 % 60) := by
  rw [entry_to_sheet_row_eq] at hok
  by_cases hc : (e.stop : Int) - (e.start : Int) ≠ e.duration
  · rw [if_pos hc] at hok; exact absurd hok (by simp)
  · rw [if_neg hc] at hok
    injection hok with hr
    subst hr
    constructor
    · exact format_time_unpadded _ _ (Nat.mod_lt _ (by omega))
    · exact format_time_unpadded _ _ (Nat.mod_lt _ (by omega))

/-- Witness for C4: the 09:00 record of the counterexample, with the
hypothesis discharged at that concrete input. -/
theorem C4_hour_format_witness :
    ("9:00" : String) = natToString ((32400 + 0) / 3600 % 24) ++ ":" ++
      pad2 ((32400 + 0) / 60 % 60) :=
  (C4_hour_format 0 (fun _ => Option.none)
    { id := 100, start := 32400, stop := 37800, duration := 5400,
      pid := Option.none, description := "work" }
    { Date := dayLabel 0, toggl_id := 100, Start := "9:00", End := "10:30",
      Project := Option.none, Description := marker ++ "work", Duration := "1:30" }
    (by rfl)).1

/-! ## Claim C2: duration validation -/

/-- Claim C2: mapping a raw record to a canonical row fails exactly when
the duration recomputed as stop minus start in whole seconds differs
from the reported duration field; no corrected value is substituted, and
on success the reported duration is the one rendered. -/
theorem C2_duration_validation (off : Nat) (projects : Nat → Option String) (e : TimeEntry) :
    ((entry_to_sheet_row off projects e).isOk = true ↔
      (e.stop : Int) - (e.start : Int) = e.duration)
    ∧ ∀ r, entry_to_sheet_row off projects e = Except.ok r →
        r.Duration = durationStr e.duration := by
  rw [entry_to_sheet_row_eq]
  by_cases hc : (e.stop : Int) - (e.start : Int) = e.duration
  · rw [if_neg (by simpa using hc)]
    refine ⟨⟨fun _ => hc, fun _ => rfl⟩, ?_⟩
    intro r hr
    injection hr with hr2
    subst hr2
    show durationStr ((e.stop : Int) - (e.start : Int)) = durationStr e.duration
    rw [hc]
  · rw [if_pos (by simpa using hc)]
    refine ⟨⟨fun h => by simp [Except.isOk, Except.toBool] at h, fun h => absurd h hc⟩, ?_⟩
    intro r hr
    exact absurd hr (by simp)

/-- Witness for C2: a concrete consistent record maps successfully and a
concrete inconsistent one does not. -/
theorem C2_duration_validation_witness :
    (entry_to_sheet_row 0 (fun _ => Option.none)
      { id := 100, start := 32400, stop := 37800, duration := 5400,
        pid := Option.none, description := "work" }).isOk = true :=
  (C2_duration_validation 0 (fun _ => Option.none) _).1.mpr (by decide)

/-! ## Claim C7: duration rendering -/

/-- Claim C7: the Duration field of a canonical row is the reported
duration floor-divided by 60 into total minutes, then divmod 60,
rendered as unbounded hours, a colon, and two-digit zero-padded
minutes. -/
theorem C7_duration_rendering (off : Nat) (projects : Nat → Option String) (e : TimeEntry)
    (r : SheetRow) (hok : entry_to_sheet_row off projects e = Except.ok r) :
    r.Duration = intToString ((e.duration.fdiv 60).fdiv 60) ++ ":" ++
      pad2 ((e.duration.fdiv 60).fmod 60).toNat :=
  (C2_duration_validation off projects e).2 r hok

/-- Witness for C7: 5400 seconds render as 1:30 and 0 seconds as 0:00
(the two rows of the scenario in the spec), via the claim theorem at the
two concrete records. -/
theorem C7_duration_rendering_witness :
    ("1:30" : String) = intToString (((5400 : Int).fdiv 60).fdiv 60) ++ ":" ++
      pad2 (((5400 : Int).fdiv 60).fmod 60).toNat
    ∧ ("0:00" : String) = intToString (((0 : Int).fdiv 60).fdiv 60) ++ ":" ++
      pad2 (((0 : Int).fdiv 60).fmod 60).toNat :=
  ⟨C7_duration_rendering 0 (fun _ => Option.none)
      { id := 100, start := 32400, stop := 37800, duration := 5400,
        pid := Option.none, description := "work" }
      { Date := dayLabel 0, toggl_id := 100, Start := "9:00", End := "10:30",
        Project := Option.none, Description := marker ++ "work", Duration := "1:30" }
      (by rfl),
   C7_duration_rendering 0 (fun _ => Option.none)
      { id := 101, start := 46800, stop := 46800, duration := 0,
        pid := Option.none, description := "work" }
      { Date := dayLabel 0, toggl_id := 101, Start := "13:00", End := "13:00",
        Project := Option.none, Description := marker ++ "work", Duration := "0:00" }
      (by rfl)⟩

/-! ## Lemmas: header setup -/

theorem setup_header_go_unfold (hr : List String) (h : String) (rest : List String) (n : Nat) :
    setup_header_go hr (h :: rest) n =
      (if hr.getD n "" = "" then
        (setup_header_go hr rest (n+1)).map (fun staged => (n+1, h) :: staged)
      else if hr.getD n "" ≠ h then Except.error "Header cell mismatch"
      else setup_header_go hr rest (n+1)) := rfl

theorem setup_header_go_spec (hr : List String) (hs : List String) :
    ∀ (n : Nat),
      (∀ staged, setup_header_go hr hs n = Except.ok staged →
        ∀ p, p ∈ staged ↔ ∃ i, ∃ hi : i < hs.length,
          hr.getD (n+i) "" = "" ∧ p = (n+i+1, hs.get ⟨i, hi⟩))
      ∧ ((setup_header_go hr hs n).isOk = true ↔
          ∀ i, ∀ hi : i < hs.length,
            hr.getD (n+i) "" ≠ "" → hr.getD (n+i) "" = hs.get ⟨i, hi⟩) := by
  induction hs with
  | nil =>
    intro n
    constructor
    · intro staged hok p
      have h0 : setup_header_go hr [] n = Except.ok ([] : List (Nat × String)) := rfl
      rw [h0] at hok
      injection hok with h2
      subst h2
      simp
    · simp [setup_header_go, Except.isOk, Except.toBool]
  | cons h rest ih =>
    intro n
    by_cases hv : hr.getD n "" = ""
    · cases hrec : setup_header_go hr rest (n+1) with
      | error msg =>
        have hgo : setup_header_go hr (h :: rest) n = Except.error msg := by
          rw [setup_header_go_unfold, if_pos hv, hrec]; rfl
        constructor
        · intro staged hok
          rw [hgo] at hok
          exact absurd hok (by simp)
        · rw [hgo]
          refine ⟨fun hok => absurd hok (by simp [Except.isOk, Except.toBool]),
                  fun hall => ?_⟩
          exfalso
          have h2 := ((ih (n+1)).2).mpr (by
            intro j hj hne
            have h3 := hall (j+1) (by simpa using Nat.succ_lt_succ hj)
            have harith : n + (j + 1) = n + 1 + j := by omega
            rw [harith] at h3
            exact (by simpa using h3 hne))
          rw [hrec] at h2
          simp [Except.isOk, Except.toBool] at h2
      | ok staged2 =>
        have hgo : setup_header_go hr (h :: rest) n = Except.ok ((n+1, h) :: staged2) := by
          rw [setup_header_go_unfold, if_pos hv, hrec]; rfl
        constructor
        · intro staged hok p
          rw [hgo] at hok
          injection hok with h2
          subst h2
          constructor
          · intro hp
            rcases List.mem_cons.mp hp with hp | hp
            · exact ⟨0, by simp, by simpa using hv, by simpa using hp⟩
            · obtain ⟨j, hj, hemp, hpe⟩ := ((ih (n+1)).1 staged2 hrec p).mp hp
              refine ⟨j+1, by simpa using Nat.succ_lt_succ hj, ?_, ?_⟩
              · have harith : n + (j + 1) = n + 1 + j := by omega
                rw [harith]; exact hemp
              · have harith : n + (j + 1) + 1 = n + 1 + j + 1 := by omega
                rw [harith]; simpa using hpe
          · rintro ⟨i, hi, hemp, hpe⟩
            cases i with
            | zero =>
              apply List.mem_cons.mpr
              left
              simpa using hpe
            | succ j =>
              apply List.mem_cons.mpr
              right
              apply ((ih (n+1)).1 staged2 hrec p).mpr
              refine ⟨j, by simpa using Nat.lt_of_succ_lt_succ hi, ?_, ?_⟩
              · have harith : n + 1 + j = n + (j + 1) := by omega
                rw [harith]; exact hemp
              · have harith : n + 1 + j + 1 = n + (j + 1) + 1 := by omega
                rw [harith]; simpa using hpe
        · rw [hgo]
          refine ⟨fun _ => ?_, fun _ => by simp [Except.isOk, Except.toBool]⟩
          intro i hi hne
          cases i with
          | zero => exact absurd (by simpa using hv) hne
          | succ j =>
            have h2 := ((ih (n+1)).2).mp (by rw [hrec]; rfl)
            have harith : n + (j + 1) = n + 1 + j := by omega
            rw [harith] at hne ⊢
            have h3 := h2 j (by simpa using Nat.lt_of_succ_lt_succ hi) hne
            simpa using h3
    · by_cases hmatch : hr.getD n "" = h
      · have hgo : setup_header_go hr (h :: rest) n = setup_header_go hr rest (n+1) := by
          rw [setup_header_go_unfold, if_neg hv,
            if_neg (show ¬ hr.getD n "" ≠ h from fun hcon => hcon hmatch)]
        constructor
        · intro staged hok p
          rw [hgo] at hok
          constructor
          · intro hp
            obtain ⟨j, hj, hemp, hpe⟩ := ((ih (n+1)).1 staged hok p).mp hp
            refine ⟨j+1, by simpa using Nat.succ_lt_succ hj, ?_, ?_⟩
            · have harith : n + (j + 1) = n + 1 + j := by omega
              rw [harith]; exact hemp
            · have harith : n + (j + 1) + 1 = n + 1 + j + 1 := by omega
              rw [harith]; simpa using hpe
          · rintro ⟨i, hi, hemp, hpe⟩
            cases i with
            | zero => exact absurd (by simpa using hemp) hv
            | succ j =>
              apply ((ih (n+1)).1 staged hok p).mpr
              refine ⟨j, by simpa using Nat.lt_of_succ_lt_succ hi, ?_, ?_⟩
              · have harith : n + 1 + j = n + (j + 1) := by omega
                rw [harith]; exact hemp
              · have harith : n + 1 + j + 1 = n + (j + 1) + 1 := by omega
                rw [harith]; simpa using hpe
        · rw [hgo]
          constructor
          · intro hok i hi hne
            cases i with
            | zero => simpa using hmatch
            | succ j =>
              have h2 := ((ih (n+1)).2).mp hok
              have harith : n + (j + 1) = n + 1 + j := by omega
              rw [harith] at hne ⊢
              simpa using h2 j (by simpa using Nat.lt_of_succ_lt_succ hi) hne
          · intro hall
            apply ((ih (n+1)).2).mpr
            intro j hj hne
            have h3 := hall (j+1) (by simpa using Nat.succ_lt_succ hj)
            have harith : n + (j + 1) = n + 1 + j := by omega
            rw [harith] at h3
            simpa using h3 hne
      · have hgo : setup_header_go hr (h :: rest) n = Except.error "Header cell mismatch" := by
          rw [setup_header_go_unfold, if_neg hv, if_pos hmatch]
        constructor
        · intro staged hok
          rw [hgo] at hok
          exact absurd hok (by simp)
        · rw [hgo]
          refine ⟨fun hok => absurd hok (by simp [Except.isOk, Except.toBool]),
                  fun hall => ?_⟩
          exact absurd
            (show hr.getD n "" = h by simpa using hall 0 (by simp) (by simpa using hv))
            hmatch

/-! ## Claim C6: header setup -/

/-- Claim C6: for every sheet first row and every position in the
expected header list, `setup_header` stages a fill with the expected
name exactly at the positions whose existing cell is empty, raises a
schema-mismatch error exactly when some existing non-empty cell differs
from the expected name, and never stages a write to a position whose
cell is non-empty. -/
theorem C6_setup_header (header_row headers : List String) :
    (∀ staged, setup_header header_row headers = Except.ok staged →
      ∀ i, ∀ hi : i < headers.length,
        (header_row.getD i "" = "" → (i+1, headers.get ⟨i, hi⟩) ∈ staged)
        ∧ (header_row.getD i "" ≠ "" →
            header_row.getD i "" = headers.get ⟨i, hi⟩ ∧ ∀ v, (i+1, v) ∉ staged))
    ∧ ((setup_header header_row headers).isOk = true ↔
        ∀ i, ∀ hi : i < headers.length,
          header_row.getD i "" ≠ "" → header_row.getD i "" = headers.get ⟨i, hi⟩) := by
  have hspec := setup_header_go_spec header_row headers 0
  constructor
  · intro staged hok i hi
    have hmem := hspec.1 staged hok
    constructor
    · intro hemp
      exact (hmem _).mpr ⟨i, hi, by simpa using hemp, by simp⟩
    · intro hne
      constructor
      · have hisok : (setup_header_go header_row headers 0).isOk = true := by
          show (setup_header header_row headers).isOk = true
          rw [hok]; rfl
        have := hspec.2.mp hisok i hi (by simpa using hne)
        simpa using this
      · intro v hvmem
        obtain ⟨j, hj, hemp, hpe⟩ := (hmem _).mp hvmem
        have hij : i = j := by
          have := congrArg Prod.fst hpe
          simpa using this
        subst hij
        exact hne (by simpa using hemp)
  · exact (by simpa using hspec.2)

/-- Witness for C6: with first row `Date`, empty, the expected headers
`Date, toggl_id` stage exactly the single empty position, and the
non-empty matching position is not written. -/
theorem C6_setup_header_witness :
    ((2 : Nat), "toggl_id") ∈ [((2 : Nat), "toggl_id")]
    ∧ ∀ v, ((1 : Nat), v) ∉ [((2 : Nat), "toggl_id")] := by
  have h := (C6_setup_header ["Date", ""] ["Date", "toggl_id"]).1
    [(2, "toggl_id")] (by rfl)
  constructor
  · exact (h 1 (by decide)).1 (by decide)
  · intro v
    exact ((h 0 (by decide)).2 (by decide)).2 v

/-! ## Lemmas: pagination -/

theorem in_window_iff (s e : Nat) (te : TimeEntry) :
    in_window s e te = true ↔ s ≤ te.start ∧ te.start ≤ e := by
  simp [in_window]

theorem foldl_max_le_iff (l : List TimeEntry) :
    ∀ (acc k : Nat), l.foldl (fun m te => max m te.stop) acc ≤ k ↔
      acc ≤ k ∧ ∀ te ∈ l, te.stop ≤ k := by
  induction l with
  | nil => intro acc k; simp
  | cons a l ih =>
    intro acc k
    simp only [List.foldl_cons, ih, List.mem_cons]
    constructor
    · rintro ⟨hmax, hall⟩
      rw [max_le_iff] at hmax
      exact ⟨hmax.1, fun te hte => by
        rcases hte with rfl | hte
        · exact hmax.2
        · exact hall te hte⟩
    · rintro ⟨hacc, hall⟩
      exact ⟨max_le_iff.mpr ⟨hacc, hall a (Or.inl rfl)⟩, fun te hte => hall te (Or.inr hte)⟩

theorem foldl_max_lt_iff (l : List TimeEntry) :
    ∀ (acc k : Nat), l.foldl (fun m te => max m te.stop) acc < k ↔
      acc < k ∧ ∀ te ∈ l, te.stop < k := by
  induction l with
  | nil => intro acc k; simp
  | cons a l ih =>
    intro acc k
    simp only [List.foldl_cons, ih, List.mem_cons]
    constructor
    · rintro ⟨hmax, hall⟩
      rw [max_lt_iff] at hmax
      exact ⟨hmax.1, fun te hte => by
        rcases hte with rfl | hte
        · exact hmax.2
        · exact hall te hte⟩
    · rintro ⟨hacc, hall⟩
      exact ⟨max_lt_iff.mpr ⟨hacc, hall a (Or.inl rfl)⟩, fun te hte => hall te (Or.inr hte)⟩

theorem stop_le_max_end (l : List TimeEntry) (te : TimeEntry) (h : te ∈ l) :
    te.stop ≤ max_end l :=
  ((foldl_max_le_iff l 0 (max_end l)).mp le_rfl).2 te h

/-- Window-advance: when the first page is full, the resumed query one
second after the high-water mark sees exactly the remainder of the
window, provided the source is ordered with each record stopping
strictly before the next one starts. -/
theorem window_advance (src : List TimeEntry) (s e : Nat)
    (hsorted : src.Pairwise (fun a b => a.stop < b.start))
    (hwf : ∀ te ∈ src, te.start ≤ te.stop)
    (hfull : page_cap ≤ (src.filter (in_window s e)).length) :
    src.filter (in_window (max_end (query_window src s e) + 1) e) =
      (src.filter (in_window s e)).drop page_cap := by
  set W := src.filter (in_window s e) with hW
  set P := W.take page_cap with hP
  set D := W.drop page_cap with hD
  have hPD : P ++ D = W := List.take_append_drop _ _
  have hWpair : W.Pairwise (fun a b => a.stop < b.start) := hsorted.filter _
  have hcross : ∀ a ∈ P, ∀ b ∈ D, a.stop < b.start := by
    have := (List.pairwise_append.mp (hPD ▸ hWpair))
    exact this.2.2
  have hPmem : ∀ a ∈ P, a ∈ W := fun a ha => hPD ▸ List.mem_append_left _ ha
  have hDmem : ∀ b ∈ D, b ∈ W := fun b hb => hPD ▸ List.mem_append_right _ hb
  have hWsrc : ∀ a ∈ W, a ∈ src := fun a ha => (List.mem_filter.mp ha).1
  have hWwin : ∀ a ∈ W, s ≤ a.start ∧ a.start ≤ e := fun a ha =>
    (in_window_iff _ _ _).mp (List.mem_filter.mp ha).2
  have hPne : P ≠ [] := by
    rw [hP]
    intro hnil
    have := List.length_take page_cap W
    rw [hnil] at this
    simp only [List.length_nil] at this
    have : page_cap ≤ 0 := by omega
    simp [page_cap] at this
  have hquery : query_window src s e = P := rfl
  set m := max_end P with hm
  have hstopP : ∀ a ∈ P, a.stop ≤ m := fun a ha => stop_le_max_end P a ha
  have hmD : ∀ b ∈ D, m < b.start := by
    intro b hb
    rw [hm]
    unfold max_end
    rw [foldl_max_lt_iff]
    refine ⟨?_, fun a ha => hcross a ha b hb⟩
    obtain ⟨a, ha⟩ := List.exists_mem_of_ne_nil P hPne
    exact lt_of_le_of_lt (Nat.zero_le _) (hcross a ha b hb)
  rw [hquery, ← hm]
  have hstep1 : src.filter (in_window (m+1) e) = W.filter (in_window (m+1) e) := by
    rw [hW, List.filter_filter]
    apply List.filter_congr
    intro a ha
    by_cases hp : in_window (m+1) e a = true
    · have hwin := (in_window_iff _ _ _).mp hp
      have hs : s ≤ a.start := by
        obtain ⟨p0, hp0⟩ := List.exists_mem_of_ne_nil P hPne
        have h1 : s ≤ p0.start := (hWwin p0 (hPmem p0 hp0)).1
        have h2 : p0.start ≤ p0.stop := hwf p0 (hWsrc _ (hPmem p0 hp0))
        have h3 : p0.stop ≤ m := hstopP p0 hp0
        omega
      have hq : in_window s e a = true := (in_window_iff _ _ _).mpr ⟨hs, hwin.2⟩
      rw [hp, hq]
      rfl
    · rw [Bool.not_eq_true] at hp
      rw [hp]
      simp
  rw [hstep1, ← hPD, List.filter_append]
  have hfilterP : P.filter (in_window (m+1) e) = [] := by
    apply List.filter_eq_nil_iff.mpr
    intro a ha
    intro hcon
    have hwin := (in_window_iff _ _ _).mp hcon
    have h1 : a.start ≤ a.stop := hwf a (hWsrc _ (hPmem a ha))
    have h2 : a.stop ≤ m := hstopP a ha
    omega
  have hfilterD : D.filter (in_window (m+1) e) = D := by
    apply List.filter_eq_self.mpr
    intro b hb
    apply (in_window_iff _ _ _).mpr
    exact ⟨by have := hmD b hb; omega, (hWwin b (hDmem b hb)).2⟩
  rw [hfilterP, hfilterD, List.nil_append]

/-- The unfiltered pagination loop drains the window completely: with a
source ordered so that each record stops strictly before the next one
starts, and enough fuel for the window, the loop terminates and yields
exactly the records of the window, in order; the trace of issued queries
starts at the window start and each resumption is one second past the
high-water mark of the previous page. -/
theorem get_entries_complete (src : List TimeEntry) (projects : List ProjectRec)
    (e : Nat) (hsorted : src.Pairwise (fun a b => a.stop < b.start))
    (hwf : ∀ te ∈ src, te.start ≤ te.stop) :
    ∀ (fuel s : Nat), (src.filter (in_window s e)).length < page_cap * fuel →
      ∃ qs, get_entries src projects Option.none s e fuel = Option.some (qs, src.filter (in_window s e))
        ∧ qs.head? = Option.some s
        ∧ List.Chain' (fun a b => b = max_end (query_window src a e) + 1) qs := by
  intro fuel
  induction fuel with
  | zero =>
    intro s hfuel
    simp at hfuel
  | succ fuel ih =>
    intro s hfuel
    set W := src.filter (in_window s e) with hW
    have hfilter_true : (query_window src s e).filter (entry_passes projects Option.none) =
        query_window src s e :=
      List.filter_eq_self.mpr (fun a _ => rfl)
    by_cases hlen : (query_window src s e).length < page_cap
    · have hWlen : W.length < page_cap := by
        have : (query_window src s e).length = min page_cap W.length := by
          show (W.take page_cap).length = _
          simp [List.length_take]
        omega
      have htake : W.take page_cap = W := List.take_of_length_le (le_of_lt hWlen)
      refine ⟨[s], ?_, rfl, List.chain'_singleton s⟩
      show (if (query_window src s e).length < page_cap then
          Option.some ([s], (query_window src s e).filter (entry_passes projects Option.none))
        else _) = _
      rw [if_pos hlen, hfilter_true]
      show Option.some ([s], W.take page_cap) = _
      rw [htake]
    · have hfull : page_cap ≤ W.length := by
        have : (query_window src s e).length = min page_cap W.length := by
          show (W.take page_cap).length = _
          simp [List.length_take]
        omega
      have hadv := window_advance src s e hsorted hwf hfull
      have hrest : (src.filter (in_window (max_end (query_window src s e) + 1) e)).length <
          page_cap * fuel := by
        rw [hadv, ← hW]
        have h1 : (W.drop page_cap).length = W.length - page_cap := by simp
        have h2 := hfuel
        have hcap : page_cap = 1000 := rfl
        rw [hcap] at h1 h2 ⊢
        omega
      obtain ⟨qs, hqs, hhead, hchain⟩ := ih (max_end (query_window src s e) + 1) hrest
      refine ⟨s :: qs, ?_, rfl, ?_⟩
      · show (if (query_window src s e).length < page_cap then
            Option.some ([s], (query_window src s e).filter (entry_passes projects Option.none))
          else match get_entries src projects Option.none (max_end (query_window src s e) + 1) e fuel with
            | Option.some (qs, rest) =>
                Option.some (s :: qs, (query_window src s e).filter (entry_passes projects Option.none) ++ rest)
            | Option.none => Option.none) = _
        rw [if_neg hlen, hqs, hfilter_true, hadv]
        show Option.some (s :: qs,
            query_window src s e ++ List.drop page_cap (List.filter (in_window s e) src)) =
          Option.some (s :: qs, W)
        rw [hW]
        show Option.some (s :: qs,
            (List.filter (in_window s e) src).take page_cap ++
              List.drop page_cap (List.filter (in_window s e) src)) = _
        rw [List.take_append_drop]
      · cases qs with
        | nil => simp at hhead
        | cons q qrest =>
          exact List.Chain'.cons (Option.some.inj hhead) hchain

theorem get_entries_unfold (src : List TimeEntry) (projects : List ProjectRec)
    (client : Option Nat) (s e fuel : Nat) :
    get_entries src projects client s e (fuel+1) =
      (if (query_window src s e).length < page_cap then
        Option.some ([s], (query_window src s e).filter (entry_passes projects client))
      else
        match get_entries src projects client (max_end (query_window src s e) + 1) e fuel with
        | Option.some (qs, rest) =>
            Option.some (s :: qs,
              (query_window src s e).filter (entry_passes projects client) ++ rest)
        | Option.none => Option.none) := rfl

/-- Filtering is per record, not per page: the run with a client filter
is exactly the unfiltered run with the per-record predicate applied to
the output, page boundaries and resumption queries unchanged. -/
theorem get_entries_filtered (src : List TimeEntry) (projects : List ProjectRec)
    (client : Option Nat) (e : Nat) :
    ∀ fuel s, get_entries src projects client s e fuel =
      Option.map (fun r => (r.1, r.2.filter (entry_passes projects client)))
        (get_entries src projects Option.none s e fuel) := by
  intro fuel
  induction fuel with
  | zero => intro s; rfl
  | succ fuel ih =>
    intro s
    rw [get_entries_unfold, get_entries_unfold]
    have hft : (query_window src s e).filter (entry_passes projects Option.none) =
        query_window src s e :=
      List.filter_eq_self.mpr (fun a _ => rfl)
    by_cases hlen : (query_window src s e).length < page_cap
    · rw [if_pos hlen, if_pos hlen, hft]
      rfl
    · rw [if_neg hlen, if_neg hlen, ih]
      cases hbase : get_entries src projects Option.none (max_end (query_window src s e) + 1) e fuel with
      | none => rfl
      | some pair =>
        obtain ⟨qs, rest⟩ := pair
        show Option.some (s :: qs,
            (query_window src s e).filter (entry_passes projects client) ++
              rest.filter (entry_passes projects client)) =
          Option.map _ (Option.some (s :: qs,
            (query_window src s e).filter (entry_passes projects Option.none) ++ rest))
        rw [hft]
        show _ = Option.some (s :: qs,
          (query_window src s e ++ rest).filter (entry_passes projects client))
        rw [List.filter_append]

/-! ## Claim C3: pagination completeness and termination -/

/-- Claim C3 (amended): with a finite source whose windowed query
returns pages capped at the 1000-entry ceiling, AND which is ordered so
that each record stops strictly before the next one starts, the adapter
yields every record of the requested window exactly once and in order,
terminates (under any fuel covering the window, in particular
immediately when a page is short), and the issued queries start at the
window start with every resumption one second past the high-water mark
of the page before it.  The ordering restriction is necessary: the
counterexample shows the resumption at high-water mark plus one second
skipping a window record that starts at a full page high-water mark. -/
theorem C3_pagination_completeness (src : List TimeEntry) (projects : List ProjectRec)
    (s e fuel : Nat) (hsorted : src.Pairwise (fun a b => a.stop < b.start))
    (hwf : ∀ te ∈ src, te.start ≤ te.stop)
    (hfuel : (src.filter (in_window s e)).length < page_cap * fuel) :
    ∃ qs, get_entries src projects Option.none s e fuel =
        Option.some (qs, src.filter (in_window s e))
      ∧ qs.head? = Option.some s
      ∧ List.Chain' (fun a b => b = max_end (query_window src a e) + 1) qs :=
  get_entries_complete src projects e hsorted hwf fuel s hfuel

/-- Witness for C3: a two-record source inside the window, drained in a
single short page. -/
theorem C3_pagination_completeness_witness :
    ∃ qs, get_entries
        [{ id := 1, start := 10, stop := 20, duration := 10,
           pid := Option.none, description := "a" },
         { id := 2, start := 30, stop := 40, duration := 10,
           pid := Option.none, description := "b" }]
        [] Option.none 0 100 1 =
        Option.some (qs,
          List.filter (in_window 0 100)
            [{ id := 1, start := 10, stop := 20, duration := 10,
               pid := Option.none, description := "a" },
             { id := 2, start := 30, stop := 40, duration := 10,
               pid := Option.none, description := "b" }])
      ∧ qs.head? = Option.some 0
      ∧ List.Chain' (fun a b => b = max_end (query_window
          [{ id := 1, start := 10, stop := 20, duration := 10,
             pid := Option.none, description := "a" },
           { id := 2, start := 30, stop := 40, duration := 10,
             pid := Option.none, description := "b" }] a 100) + 1) qs :=
  C3_pagination_completeness _ [] 0 100 1 (by decide) (by decide) (by decide)

/-! ## Claim C8: filter independence of pagination -/

/-- Claim C8: with an association filter the adapter first resolves the
set of project ids of the association and yields exactly the records of
the unfiltered run whose project id belongs to that set; the whole run,
and in particular the sequence of issued continuation queries, is the
unfiltered run with a per-record filter applied to the yielded pages, so
pagination progress is identical with and without the filter. -/
theorem C8_filter_independence (src : List TimeEntry) (projects : List ProjectRec)
    (cid : Nat) (s e fuel : Nat) :
    get_entries src projects (Option.some cid) s e fuel =
      Option.map (fun r => (r.1, r.2.filter (entry_passes projects (Option.some cid))))
        (get_entries src projects Option.none s e fuel)
    ∧ (get_entries src projects (Option.some cid) s e fuel).map Prod.fst =
        (get_entries src projects Option.none s e fuel).map Prod.fst
    ∧ (∀ te, entry_passes projects (Option.some cid) te = true ↔
        ∃ pid, te.pid = Option.some pid ∧ pid ∈ valid_project_ids projects cid)
    ∧ (∀ p, p ∈ valid_project_ids projects cid ↔
        ∃ pr ∈ projects, pr.cid = Option.some cid ∧ pr.id = p) := by
  refine ⟨get_entries_filtered src projects (Option.some cid) e fuel s, ?_, ?_, ?_⟩
  · rw [get_entries_filtered src projects (Option.some cid) e fuel s]
    cases get_entries src projects Option.none s e fuel with
    | none => rfl
    | some pair => rfl
  · intro te
    unfold entry_passes
    cases te.pid with
    | none => simp
    | some pid =>
      simp only [show ∀ l : List Nat, ∀ a : Nat, (l.contains a = true) = (a ∈ l) from
        fun l a => propext List.elem_iff]
      constructor
      · intro h
        exact ⟨pid, rfl, by simpa using h⟩
      · rintro ⟨pid2, hpe, hmem⟩
        injection hpe with hpe2
        subst hpe2
        simpa using hmem
  · intro p
    unfold valid_project_ids
    simp only [List.mem_map, List.mem_filter]
    constructor
    · rintro ⟨pr, ⟨hmem, hcid⟩, hid⟩
      exact ⟨pr, hmem, by simpa using hcid, hid⟩
    · rintro ⟨pr, hmem, hcid, hid⟩
      exact ⟨pr, ⟨hmem, by simpa using hcid⟩, hid⟩

/-! ## Claim C9: aggregate flush -/

/-- Claim C9: flushing a final set of buckets emits exactly one
destination row per bucket, the rows following the bucket keys in
ascending order, each row holding the period label and the total
duration rendered `H:MM` (staged with the text marker, which the store
consumes). -/
theorem C9_aggregate_flush (lbl : Nat → String) (buckets : List (Nat × Int)) :
    (buckets.mergeSort (fun a b => decide (a.1 ≤ b.1))).Perm buckets
    ∧ List.Pairwise (fun a b => a.1 ≤ b.1)
        (buckets.mergeSort (fun a b => decide (a.1 ≤ b.1)))
    ∧ flush_summary lbl buckets =
        (buckets.mergeSort (fun a b => decide (a.1 ≤ b.1))).map
          (fun p => (lbl p.1, marker ++ durationStr p.2))
    ∧ (flush_summary lbl buckets).length = buckets.length
    ∧ ∀ p ∈ buckets,
        ((lbl p.1, marker ++ durationStr p.2) ∈ flush_summary lbl buckets
          ∧ storeStr (marker ++ durationStr p.2) = durationStr p.2) := by
  refine ⟨List.mergeSort_perm buckets _, ?_, rfl, ?_, ?_⟩
  · have hs := @List.sorted_mergeSort (Nat × Int)
      (fun a b => decide (a.1 ≤ b.1))
      (fun a b c hab hbc => by
        simp only [decide_eq_true_iff] at *
        omega)
      (fun a b => by
        simp only [Bool.or_eq_true, decide_eq_true_iff]
        omega)
      buckets
    exact hs.imp (fun h => by simpa using h)
  · show ((buckets.mergeSort (fun a b => decide (a.1 ≤ b.1))).map
        (fun p => (lbl p.1, marker ++ durationStr p.2))).length = buckets.length
    rw [List.length_map]
    exact (List.mergeSort_perm buckets _).length_eq
  · intro p hp
    constructor
    · exact List.mem_map_of_mem _ ((List.mergeSort_perm buckets _).mem_iff.mpr hp)
    · exact storeStr_marker _

/-- Witness for C9: the two records of the aggregate scenario land on
the same Monday-anchored week (epoch day 4 is a Monday), accumulate to a
single 5400-second bucket, and flush as one row rendering 1:30. -/
theorem C9_aggregate_flush_witness :
    start_of_week (86400 * 4 / 86400) = start_of_week ((86400 * 5 + 7200) / 86400)
    ∧ add_duration (add_duration [] (start_of_week 4) 3600) (start_of_week 5) 1800 =
        [(start_of_week 4, 5400)]
    ∧ (natToString (start_of_week 4), marker ++ durationStr 5400) ∈
        flush_summary natToString [(start_of_week 4, 5400)]
    ∧ storeStr (marker ++ durationStr 5400) = "1:30" := by
  refine ⟨by decide, by decide, ?_, ?_⟩
  · exact ((C9_aggregate_flush natToString [(start_of_week 4, 5400)]).2.2.2.2
      (start_of_week 4, 5400) (by decide)).1
  · have h := ((C9_aggregate_flush natToString [(start_of_week 4, 5400)]).2.2.2.2
      (start_of_week 4, 5400) (by decide)).2
    rw [h]
    decide

/-! ## Lemmas: the destination index -/

theorem build_index_over_spec (s : Sheet) (L : List Nat)
    (hasc : List.Pairwise (· < ·) L)
    (hvalid : ∀ r ∈ L, s.cells r Header.toggl_id ≠ "" →
      (parseInt (s.cells r Header.toggl_id)).isSome = true) :
    ∃ m ar, L.foldlM (index_step s) ((fun _ => Option.none : IdMap), 2) = Except.ok (m, ar)
      ∧ (∀ k r row, m k = Option.some (r, row) ↔
          (r ∈ L ∧ row = s.cells r ∧ rowHasId s r k ∧ ∀ r2 ∈ L, rowHasId s r2 k → r2 ≤ r))
      ∧ ar = next_append_over s L := by
  induction L using List.reverseRecOn with
  | nil =>
    refine ⟨fun _ => Option.none, 2, rfl, ?_, rfl⟩
    intro k r row
    simp
  | append_singleton L rN ih =>
    have hascL : List.Pairwise (· < ·) L := (List.pairwise_append.mp hasc).1
    have hLlt : ∀ a ∈ L, a < rN := by
      intro a ha
      exact (List.pairwise_append.mp hasc).2.2 a ha rN (List.mem_singleton_self rN)
    obtain ⟨m, ar, hfold, hchar, har⟩ := ih hascL
      (fun r hr => hvalid r (List.mem_append_left _ hr))
    rw [List.foldlM_append]
    rw [hfold]
    by_cases hcell : s.cells rN Header.toggl_id = ""
    · refine ⟨m, ar, ?_, ?_, ?_⟩
      · show (Except.ok (m, ar) >>= fun acc => List.foldlM (index_step s) acc [rN]) =
          Except.ok (m, ar)
        show List.foldlM (index_step s) (m, ar) [rN] = Except.ok (m, ar)
        show (index_step s (m, ar) rN >>= fun acc => Except.ok acc) = Except.ok (m, ar)
        unfold index_step
        rw [if_pos hcell]
        rfl
      · intro k r row
        rw [hchar k r row]
        constructor
        · rintro ⟨hmem, hrow, hid, hmax⟩
          refine ⟨List.mem_append_left _ hmem, hrow, hid, ?_⟩
          intro r2 hr2 hid2
          rcases List.mem_append.mp hr2 with hr2 | hr2
          · exact hmax r2 hr2 hid2
          · rw [List.mem_singleton.mp hr2] at hid2
            exact absurd hcell hid2.1
        · rintro ⟨hmem, hrow, hid, hmax⟩
          rcases List.mem_append.mp hmem with hmem | hmem
          · exact ⟨hmem, hrow, hid, fun r2 hr2 hid2 =>
              hmax r2 (List.mem_append_left _ hr2) hid2⟩
          · rw [List.mem_singleton.mp hmem] at hid
            exact absurd hcell hid.1
      · unfold next_append_over
        rw [List.foldl_append]
        show ar = if s.cells rN Header.toggl_id ≠ "" then _ else next_append_over s L
        rw [if_neg (fun hcon => hcon hcell), har]
    · have hparse : (parseInt (s.cells rN Header.toggl_id)).isSome = true :=
        hvalid rN (List.mem_append_right _ (List.mem_singleton_self rN)) hcell
      obtain ⟨id0, hid0⟩ := Option.isSome_iff_exists.mp hparse
      refine ⟨fun k => if k = id0 then Option.some (rN, s.cells rN) else m k,
              if rN ≥ ar then rN + 1 else ar, ?_, ?_, ?_⟩
      · show List.foldlM (index_step s) (m, ar) [rN] = _
        show (index_step s (m, ar) rN >>= fun acc => Except.ok acc) = _
        unfold index_step
        rw [if_neg hcell, hid0]
        rfl
      · intro k r row
        by_cases hk : k = id0
        · subst hk
          change (if k = k then Option.some (rN, s.cells rN) else m k) =
            Option.some (r, row) ↔ _
          rw [if_pos rfl]
          constructor
          · intro hsome
            injection hsome with hpair
            have hr : r = rN := (congrArg Prod.fst hpair).symm
            have hrow : row = s.cells rN := (congrArg Prod.snd hpair).symm
            subst hr
            refine ⟨List.mem_append_right _ (List.mem_singleton_self r), by rw [hrow],
              ⟨hcell, hid0⟩, ?_⟩
            intro r2 hr2 hid2
            rcases List.mem_append.mp hr2 with hr2 | hr2
            · exact le_of_lt (hLlt r2 hr2)
            · rw [List.mem_singleton.mp hr2]
          · rintro ⟨hmem, hrow, hid, hmax⟩
            have hr : r = rN := by
              rcases List.mem_append.mp hmem with hmem | hmem
              · exfalso
                have h1 := hmax rN (List.mem_append_right _ (List.mem_singleton_self rN))
                  ⟨hcell, hid0⟩
                have h2 := hLlt r hmem
                omega
              · exact List.mem_singleton.mp hmem
            subst hr
            rw [hrow]
        · change (if k = id0 then Option.some (rN, s.cells rN) else m k) =
            Option.some (r, row) ↔ _
          rw [if_neg hk]
          rw [hchar k r row]
          constructor
          · rintro ⟨hmem, hrow, hid, hmax⟩
            refine ⟨List.mem_append_left _ hmem, hrow, hid, ?_⟩
            intro r2 hr2 hid2
            rcases List.mem_append.mp hr2 with hr2 | hr2
            · exact hmax r2 hr2 hid2
            · exfalso
              rw [List.mem_singleton.mp hr2] at hid2
              have : Option.some id0 = Option.some k := by rw [← hid0, hid2.2]
              injection this with hcon
              exact hk hcon.symm
          · rintro ⟨hmem, hrow, hid, hmax⟩
            rcases List.mem_append.mp hmem with hmem | hmem
            · exact ⟨hmem, hrow, hid, fun r2 hr2 hid2 =>
                hmax r2 (List.mem_append_left _ hr2) hid2⟩
            · exfalso
              rw [List.mem_singleton.mp hmem] at hid
              have : Option.some id0 = Option.some k := by rw [← hid0, hid.2]
              injection this with hcon
              exact hk hcon.symm
      · unfold next_append_over
        rw [List.foldl_append]
        show _ = if s.cells rN Header.toggl_id ≠ "" then
          max (next_append_over s L) (rN+1) else next_append_over s L
        rw [if_pos hcell, ← har]
        rcases Nat.lt_or_ge rN ar with h | h
        · rw [if_neg (by omega)]
          omega
        · rw [if_pos (by omega)]
          omega

/-! ## Lemmas: the reconciler step -/

/-- The step facts of the per-record loop: the index is never modified,
the append cursor never decreases, and the staged writes grow by a block
that targets either a row mapped by the index or exactly the append
cursor. -/
theorem sync_entry_spec (off : Nat) (projects : Nat → Option String) (month : Nat)
    (st : SyncState) (e : TimeEntry) (st2 : SyncState)
    (hok : sync_entry off projects month st e = Except.ok st2) :
    st2.map = st.map
    ∧ st.append_row ≤ st2.append_row
    ∧ ∃ ws2, st2.update_cells = st.update_cells ++ ws2
        ∧ ∀ w ∈ ws2, (∃ k row, st.map k = Option.some (w.1, row))
            ∨ (w.1 = st.append_row ∧ st.append_row < st2.append_row) := by
  unfold sync_entry at hok
  cases hx : entry_to_sheet_row off projects e with
  | error msg =>
    rw [hx] at hok
    simp [Bind.bind, Except.bind] at hok
  | ok sv =>
    rw [hx] at hok
    simp only [Bind.bind, Except.bind] at hok
    cases hmap : st.map (e.id : Int) with
    | some pair =>
      obtain ⟨row, sheet_row⟩ := pair
      rw [hmap] at hok
      simp only [] at hok
      cases hc : compare_row sv sheet_row with
      | error msg =>
        rw [hc] at hok
        simp at hok
      | ok diffs =>
        rw [hc] at hok
        simp only [] at hok
        by_cases hd : diffs ≠ []
        · rw [if_pos hd] at hok
          injection hok with hok2
          subst hok2
          refine ⟨rfl, le_rfl, diffs.map (fun p => (row, p.1, p.2)), rfl, ?_⟩
          intro w hw
          obtain ⟨p, hp, hpe⟩ := List.mem_map.mp hw
          left
          refine ⟨(e.id : Int), sheet_row, ?_⟩
          rw [hmap, ← hpe]
        · rw [if_neg hd] at hok
          injection hok with hok2
          subst hok2
          exact ⟨rfl, le_rfl, [], by simp, by simp⟩
    | none =>
      rw [hmap] at hok
      simp only [] at hok
      injection hok with hok2
      subst hok2
      refine ⟨rfl, by simp, SHEET_HEADERS.map (fun h => (st.append_row, h, rowVal sv h)),
        rfl, ?_⟩
      intro w hw
      obtain ⟨h, hh, hhe⟩ := List.mem_map.mp hw
      right
      exact ⟨by rw [← hhe], by simp⟩

/-- Facts of the whole per-record fold: the index is never modified, the
append cursor never decreases, and every staged write of the run targets
either a row mapped by the index or a row in the appended band between
the initial and the final cursor. -/
theorem sync_fold_spec (off : Nat) (projects : Nat → Option String) (month : Nat) :
    ∀ (entries : List TimeEntry) (st stF : SyncState),
      entries.foldlM (sync_entry off projects month) st = Except.ok stF →
      stF.map = st.map
      ∧ st.append_row ≤ stF.append_row
      ∧ ∃ ws2, stF.update_cells = st.update_cells ++ ws2
          ∧ ∀ w ∈ ws2, (∃ k row, st.map k = Option.some (w.1, row))
              ∨ (st.append_row ≤ w.1 ∧ w.1 < stF.append_row) := by
  intro entries
  induction entries with
  | nil =>
    intro st stF h
    have h2 : Except.ok st = Except.ok stF := h
    injection h2 with h3
    subst h3
    exact ⟨rfl, le_rfl, [], by simp, by simp⟩
  | cons e rest ih =>
    intro st stF h
    rw [List.foldlM_cons] at h
    cases h1 : sync_entry off projects month st e with
    | error msg =>
      rw [h1] at h
      simp [Bind.bind, Except.bind] at h
    | ok st1 =>
      rw [h1] at h
      simp only [Bind.bind, Except.bind] at h
      obtain ⟨hmap1, har1, ws1, hupd1, hclass1⟩ := sync_entry_spec _ _ _ _ _ _ h1
      obtain ⟨hmapF, harF, wsF, hupdF, hclassF⟩ := ih st1 stF h
      refine ⟨by rw [hmapF, hmap1], le_trans har1 harF, ws1 ++ wsF, ?_, ?_⟩
      · rw [hupdF, hupd1, List.append_assoc]
      · intro w hw
        rcases List.mem_append.mp hw with hw | hw
        · rcases hclass1 w hw with ⟨k, row, hk⟩ | ⟨hcur, hbump⟩
          · exact Or.inl ⟨k, row, hk⟩
          · exact Or.inr ⟨le_of_eq hcur.symm, by omega⟩
        · rcases hclassF w hw with ⟨k, row, hk⟩ | ⟨h1le, h2lt⟩
          · rw [hmap1] at hk
            exact Or.inl ⟨k, row, hk⟩
          · exact Or.inr ⟨le_trans har1 h1le, h2lt⟩

theorem foldl_bump_le (s : Sheet) :
    ∀ (L : List Nat) (acc : Nat),
      acc ≤ L.foldl (fun acc r => if s.cells r Header.toggl_id ≠ "" then max acc (r+1) else acc) acc := by
  intro L
  induction L with
  | nil => intro acc; simp
  | cons a L ih =>
    intro acc
    rw [List.foldl_cons]
    have h1 : acc ≤ (if s.cells a Header.toggl_id ≠ "" then max acc (a+1) else acc) := by
      by_cases hc : s.cells a Header.toggl_id ≠ ""
      · rw [if_pos hc]; exact Nat.le_max_left _ _
      · rw [if_neg hc]
    exact le_trans h1 (ih _)

theorem foldl_bump_acc (s : Sheet) :
    ∀ (L : List Nat) (acc acc2 : Nat), acc ≤ acc2 →
      L.foldl (fun acc r => if s.cells r Header.toggl_id ≠ "" then max acc (r+1) else acc) acc ≤
      L.foldl (fun acc r => if s.cells r Header.toggl_id ≠ "" then max acc (r+1) else acc) acc2 := by
  intro L
  induction L with
  | nil => intro acc acc2 h; simpa using h
  | cons a L ih =>
    intro acc acc2 h
    rw [List.foldl_cons, List.foldl_cons]
    apply ih
    by_cases hc : s.cells a Header.toggl_id ≠ ""
    · rw [if_pos hc, if_pos hc]; omega
    · rw [if_neg hc, if_neg hc]; exact h

theorem next_append_over_ge (s : Sheet) (L : List Nat) (r : Nat) (hr : r ∈ L)
    (hne : s.cells r Header.toggl_id ≠ "") : r + 1 ≤ next_append_over s L := by
  unfold next_append_over
  induction L with
  | nil => simp at hr
  | cons a L ih =>
    rw [List.foldl_cons]
    rcases List.mem_cons.mp hr with rfl | hr2
    · rw [if_pos hne]
      calc r + 1 ≤ max 2 (r+1) := Nat.le_max_right _ _
        _ ≤ _ := foldl_bump_le s L _
    · calc r + 1 ≤ L.foldl _ 2 := ih hr2
        _ ≤ _ := by
            apply foldl_bump_acc
            by_cases hc : s.cells a Header.toggl_id ≠ ""
            · rw [if_pos hc]; exact Nat.le_max_left _ _
            · rw [if_neg hc]

/-- The index load on a sheet: under parse validity of the populated id
cells it succeeds; the index maps an id exactly to the last data row
carrying it, with that row's cached values; and the append cursor is one
past the highest populated row (2 when none). -/
theorem build_index_spec (s : Sheet)
    (hvalid : ∀ r ∈ sheet_rows s, s.cells r Header.toggl_id ≠ "" →
      (parseInt (s.cells r Header.toggl_id)).isSome = true) :
    ∃ m ar, build_index s = Except.ok (m, ar)
      ∧ (∀ k r row, m k = Option.some (r, row) ↔
          (r ∈ sheet_rows s ∧ row = s.cells r ∧ rowHasId s r k ∧
            ∀ r2 ∈ sheet_rows s, rowHasId s r2 k → r2 ≤ r))
      ∧ ar = specNextAppendRow s := by
  have h := build_index_over_spec s (sheet_rows s)
    (List.pairwise_lt_range' 2 (s.row_count - 1)) hvalid
  exact h

/-! ## Claim C5: append-position invariant -/

/-- Claim C5: after loading a sheet the next append row is one past the
highest row whose id cell is non-empty (2 when none); every indexed row
lies strictly below it; during reconciliation the cursor never decreases
and the index never changes; and every staged write of a run from the
loaded state targets either an indexed row below the initial cursor or a
row in the appended band at or past it — never between existing rows. -/
theorem C5_append_position (s : Sheet) (m : IdMap) (ar : Nat)
    (hvalid : ∀ r ∈ sheet_rows s, s.cells r Header.toggl_id ≠ "" →
      (parseInt (s.cells r Header.toggl_id)).isSome = true)
    (hidx : build_index s = Except.ok (m, ar)) :
    ar = specNextAppendRow s
    ∧ (∀ k r row, m k = Option.some (r, row) → r < ar)
    ∧ (∀ (off : Nat) (projects : Nat → Option String) (month : Nat) (st : SyncState)
          (e : TimeEntry) (st2 : SyncState),
        sync_entry off projects month st e = Except.ok st2 →
        st.append_row ≤ st2.append_row ∧ st2.map = st.map)
    ∧ (∀ (off : Nat) (projects : Nat → Option String) (month : Nat)
          (entries : List TimeEntry) (stF : SyncState),
        entries.foldlM (sync_entry off projects month)
          { map := m, append_row := ar, update_cells := [], added := 0, updated := 0,
            unchanged := 0, summary_weeks := [], summary_months := [] } = Except.ok stF →
        ar ≤ stF.append_row
        ∧ ∀ w ∈ stF.update_cells,
            (∃ k row, m k = Option.some (w.1, row) ∧ w.1 < ar)
            ∨ (ar ≤ w.1 ∧ w.1 < stF.append_row)) := by
  obtain ⟨m2, ar2, hfold, hchar, har⟩ := build_index_spec s hvalid
  rw [hidx] at hfold
  injection hfold with hpair
  have hm : m = m2 := (congrArg Prod.fst hpair)
  have harr : ar = ar2 := (congrArg Prod.snd hpair)
  subst hm
  subst harr
  have hbelow : ∀ k r row, m k = Option.some (r, row) → r < ar := by
    intro k r row hk
    obtain ⟨hmem, _, hid, _⟩ := (hchar k r row).mp hk
    have := next_append_over_ge s (sheet_rows s) r hmem hid.1
    rw [har]
    unfold specNextAppendRow
    omega
  refine ⟨har, hbelow, ?_, ?_⟩
  · intro off projects month st e st2 hok
    obtain ⟨hmap, harx, _⟩ := sync_entry_spec _ _ _ _ _ _ hok
    exact ⟨harx, hmap⟩
  · intro off projects month entries stF hrun
    obtain ⟨hmapF, harF, ws2, hupd, hclass⟩ := sync_fold_spec _ _ _ _ _ _ hrun
    refine ⟨harF, ?_⟩
    intro w hw
    rw [hupd] at hw
    simp only [List.nil_append] at hw
    rcases hclass w hw with ⟨k, row, hk⟩ | hband
    · exact Or.inl ⟨k, row, hk, hbelow k w.1 row hk⟩
    · exact Or.inr hband

/-- Witness for C5: a sheet whose only populated row is row 2 loads with
append cursor 3, one past it. -/
theorem C5_append_position_witness :
    (3 : Nat) = specNextAppendRow
      { row_count := 3, cells := fun r h => if r = 2 ∧ h = Header.toggl_id then "7" else "" } :=
  (C5_append_position
    { row_count := 3, cells := fun r h => if r = 2 ∧ h = Header.toggl_id then "7" else "" }
    _ 3 (by decide) (by rfl)).1

/-! ## Claim C10: duplicate ids in the destination -/

/-- Claim C10: when two data rows of a sheet carry the same non-empty
external id, the index load does not fail; the later row silently
replaces the earlier one in the id-to-position mapping, so lookups for
that id resolve to the last such row and no staged write of a
reconciliation run from the loaded state ever targets the earlier
duplicate row. -/
theorem C10_duplicate_ids (s : Sheet) (k : Int) (r1 r2 : Nat)
    (hvalid : ∀ r ∈ sheet_rows s, s.cells r Header.toggl_id ≠ "" →
      (parseInt (s.cells r Header.toggl_id)).isSome = true)
    (hr1 : r1 ∈ sheet_rows s) (hr2 : r2 ∈ sheet_rows s)
    (h1 : rowHasId s r1 k) (h2 : rowHasId s r2 k) (hlt : r1 < r2)
    (hmax : ∀ r ∈ sheet_rows s, rowHasId s r k → r ≤ r2) :
    ∃ m ar, build_index s = Except.ok (m, ar)
      ∧ m k = Option.some (r2, s.cells r2)
      ∧ (∀ k2 row, m k2 ≠ Option.some (r1, row))
      ∧ ∀ (off : Nat) (projects : Nat → Option String) (month : Nat)
          (entries : List TimeEntry) (stF : SyncState),
          entries.foldlM (sync_entry off projects month)
            { map := m, append_row := ar, update_cells := [], added := 0, updated := 0,
              unchanged := 0, summary_weeks := [], summary_months := [] } = Except.ok stF →
          ∀ w ∈ stF.update_cells, w.1 ≠ r1 := by
  obtain ⟨m, ar, hfold, hchar, har⟩ := build_index_spec s hvalid
  have hnot1 : ∀ k2 row, m k2 ≠ Option.some (r1, row) := by
    intro k2 row hk2
    obtain ⟨hmem1, _, hid1, hmax1⟩ := (hchar k2 r1 row).mp hk2
    have hkk : k2 = k := by
      have ha := h1.2
      have hb := hid1.2
      rw [ha] at hb
      injection hb with hbb
      exact hbb.symm
    subst hkk
    have := hmax1 r2 hr2 h2
    omega
  have hr1ar : r1 < ar := by
    have := next_append_over_ge s (sheet_rows s) r1 hr1 h1.1
    rw [har]
    unfold specNextAppendRow
    omega
  refine ⟨m, ar, hfold, ?_, hnot1, ?_⟩
  · exact (hchar k r2 (s.cells r2)).mpr ⟨hr2, rfl, h2, hmax⟩
  · intro off projects month entries stF hrun
    obtain ⟨hmapF, harF, ws2, hupd, hclass⟩ := sync_fold_spec _ _ _ _ _ _ hrun
    intro w hw
    rw [hupd] at hw
    simp only [List.nil_append] at hw
    rcases hclass w hw with ⟨k2, row, hk2⟩ | ⟨hband, _⟩
    · intro hcon
      rw [hcon] at hk2
      exact hnot1 k2 row hk2
    · intro hcon
      have hb2 : ar ≤ w.1 := hband
      omega

/-- Witness for C10: a sheet with id 7 in row 2 and row 3 resolves id 7
to row 3. -/
theorem C10_duplicate_ids_witness :
    ∃ m ar, build_index
        { row_count := 3, cells := fun _ h => if h = Header.toggl_id then "7" else "" } =
        Except.ok (m, ar)
      ∧ m 7 = Option.some (3,
          ({ row_count := 3,
             cells := fun _ h => if h = Header.toggl_id then "7" else "" } : Sheet).cells 3)
      ∧ (∀ k2 row, m k2 ≠ Option.some (2, row))
      ∧ ∀ (off : Nat) (projects : Nat → Option String) (month : Nat)
          (entries : List TimeEntry) (stF : SyncState),
          entries.foldlM (sync_entry off projects month)
            { map := m, append_row := ar, update_cells := [], added := 0, updated := 0,
              unchanged := 0, summary_weeks := [], summary_months := [] } = Except.ok stF →
          ∀ w ∈ stF.update_cells, w.1 ≠ 2 :=
  C10_duplicate_ids
    { row_count := 3, cells := fun _ h => if h = Header.toggl_id then "7" else "" }
    7 2 3 (by decide) (by decide) (by decide) (by decide) (by decide) (by decide) (by decide)

/-! ## Lemmas: applying staged writes -/

theorem writes_at_append (w1 w2 : List (Nat × Header × PyVal)) (r : Nat) (h : Header) :
    writes_at (w1 ++ w2) r h = writes_at w1 r h ++ writes_at w2 r h :=
  List.filter_append _ _

theorem mem_writes_at (ws : List (Nat × Header × PyVal)) (r : Nat) (h : Header)
    (w : Nat × Header × PyVal) :
    w ∈ writes_at ws r h ↔ w ∈ ws ∧ w.1 = r ∧ w.2.1 = h := by
  unfold writes_at
  rw [List.mem_filter]
  simp

theorem writes_at_nil_of_row_ne (ws : List (Nat × Header × PyVal)) (r : Nat) (h : Header)
    (hne : ∀ w ∈ ws, w.1 ≠ r) : writes_at ws r h = [] := by
  apply List.filter_eq_nil_iff.mpr
  intro w hw
  simp [hne w hw]

theorem apply_writes_nil (s : Sheet) : apply_writes s [] = s := rfl

theorem apply_writes_cells (ws : List (Nat × Header × PyVal)) :
    ∀ (s : Sheet) (r : Nat) (h : Header),
      (apply_writes s ws).cells r h =
        match (writes_at ws r h).getLast? with
        | Option.some w => storeCell w.2.2
        | Option.none => s.cells r h := by
  induction ws with
  | nil => intro s r h; rfl
  | cons w ws ih =>
    intro s r h
    show (apply_writes (apply_write s w) ws).cells r h = _
    rw [ih (apply_write s w) r h]
    by_cases hmatch : w.1 = r ∧ w.2.1 = h
    · have hfw : writes_at (w :: ws) r h = w :: writes_at ws r h := by
        unfold writes_at
        rw [List.filter_cons_of_pos (by simp [hmatch.1, hmatch.2])]
      rw [hfw]
      cases hws : writes_at ws r h with
      | nil =>
        show (apply_write s w).cells r h = storeCell w.2.2
        unfold apply_write
        simp only []
        rw [if_pos ⟨hmatch.1.symm, hmatch.2.symm⟩]
      | cons a l =>
        rw [List.getLast?_cons_cons]
        cases hlast : (a :: l).getLast? with
        | some w2 => rfl
        | none => simp at hlast
    · have hfw : writes_at (w :: ws) r h = writes_at ws r h := by
        unfold writes_at
        rw [List.filter_cons_of_neg (by
          simp only [Bool.and_eq_true, decide_eq_true_iff]
          intro hcon
          exact hmatch hcon)]
      rw [hfw]
      cases hlast : (writes_at ws r h).getLast? with
      | some w2 => rfl
      | none =>
        show (apply_write s w).cells r h = s.cells r h
        unfold apply_write
        simp only []
        rw [if_neg (by
          intro hcon
          exact hmatch ⟨hcon.1.symm, hcon.2.symm⟩)]

theorem foldl_max_gen_le_iff {α : Type} (g : α → Nat) (l : List α) :
    ∀ (acc k : Nat), l.foldl (fun m x => max m (g x)) acc ≤ k ↔
      acc ≤ k ∧ ∀ x ∈ l, g x ≤ k := by
  induction l with
  | nil => intro acc k; simp
  | cons a l ih =>
    intro acc k
    simp only [List.foldl_cons, ih, List.mem_cons]
    constructor
    · rintro ⟨hmax, hall⟩
      rw [max_le_iff] at hmax
      exact ⟨hmax.1, fun x hx => by
        rcases hx with rfl | hx
        · exact hmax.2
        · exact hall x hx⟩
    · rintro ⟨hacc, hall⟩
      exact ⟨max_le_iff.mpr ⟨hacc, hall a (Or.inl rfl)⟩, fun x hx => hall x (Or.inr hx)⟩

theorem apply_writes_row_count (ws : List (Nat × Header × PyVal)) :
    ∀ (s : Sheet), (apply_writes s ws).row_count =
      ws.foldl (fun m w => max m w.1) s.row_count := by
  induction ws with
  | nil => intro s; rfl
  | cons w ws ih =>
    intro s
    show (apply_writes (apply_write s w) ws).row_count = _
    rw [ih, List.foldl_cons]
    rfl

theorem row_count_le_apply_writes (s : Sheet) (ws : List (Nat × Header × PyVal)) :
    s.row_count ≤ (apply_writes s ws).row_count := by
  rw [apply_writes_row_count]
  exact ((foldl_max_gen_le_iff (fun w => w.1) ws s.row_count _).mp le_rfl).1

theorem write_row_le_row_count (s : Sheet) (ws : List (Nat × Header × PyVal))
    (w : Nat × Header × PyVal) (hw : w ∈ ws) :
    w.1 ≤ (apply_writes s ws).row_count := by
  rw [apply_writes_row_count]
  exact ((foldl_max_gen_le_iff (fun w => w.1) ws s.row_count _).mp le_rfl).2 w hw

theorem apply_writes_row_count_le (s : Sheet) (ws : List (Nat × Header × PyVal)) (B : Nat)
    (hB : s.row_count ≤ B) (hws : ∀ w ∈ ws, w.1 ≤ B) :
    (apply_writes s ws).row_count ≤ B := by
  rw [apply_writes_row_count]
  exact (foldl_max_gen_le_iff (fun w => w.1) ws s.row_count B).mpr ⟨hB, hws⟩

theorem mem_sheet_rows (s : Sheet) (r : Nat) :
    r ∈ sheet_rows s ↔ 2 ≤ r ∧ r < s.row_count + 1 := by
  unfold sheet_rows
  rw [List.mem_range'_1]
  omega

/-! ## Lemmas: the field-by-field comparison -/

theorem compare_row_go (sv : SheetRow) (c : Header → String) :
    ∀ (hs : List Header) (acc : List (Header × PyVal)),
      (∀ h ∈ hs, ∃ dv, derived_cell h (c h) = Except.ok dv) →
      hs.foldlM
        (fun acc h => do
          let dv ← derived_cell h (c h)
          if dv ≠ rowVal sv h then Except.ok (acc ++ [(h, rowVal sv h)]) else Except.ok acc)
        acc =
      Except.ok (acc ++
        (hs.filter (fun h => decide (derived_cell h (c h) ≠ Except.ok (rowVal sv h)))).map
          (fun h => (h, rowVal sv h))) := by
  intro hs
  induction hs with
  | nil =>
    intro acc _
    simp only [List.foldlM_nil, List.filter_nil, List.map_nil, List.append_nil]
    rfl
  | cons h hs ih =>
    intro acc hall
    obtain ⟨dv, hdv⟩ := hall h (List.mem_cons_self _ _)
    rw [List.foldlM_cons]
    rw [hdv]
    simp only [Bind.bind, Except.bind]
    by_cases hne : dv ≠ rowVal sv h
    · rw [if_pos hne]
      show List.foldlM
          (fun acc h => do
            let dv ← derived_cell h (c h)
            if dv ≠ rowVal sv h then Except.ok (acc ++ [(h, rowVal sv h)]) else Except.ok acc)
          (acc ++ [(h, rowVal sv h)]) hs = _
      rw [ih (acc ++ [(h, rowVal sv h)]) (fun h2 hh2 => hall h2 (List.mem_cons_of_mem _ hh2))]
      rw [List.filter_cons_of_pos (by
        rw [hdv]
        simp only [decide_eq_true_iff]
        intro hcon
        exact hne (Except.ok.inj hcon))]
      rw [List.map_cons]
      simp [List.append_assoc]
    · rw [if_neg hne]
      show List.foldlM
          (fun acc h => do
            let dv ← derived_cell h (c h)
            if dv ≠ rowVal sv h then Except.ok (acc ++ [(h, rowVal sv h)]) else Except.ok acc)
          acc hs = _
      rw [ih acc (fun h2 hh2 => hall h2 (List.mem_cons_of_mem _ hh2))]
      rw [List.filter_cons_of_neg (by
        rw [hdv]
        simp only [decide_eq_true_iff, Decidable.not_not]
        rw [Decidable.not_not] at hne
        rw [hne])]

theorem compare_row_all_ok (sv : SheetRow) (c : Header → String) :
    ∀ (hs : List Header) (acc : List (Header × PyVal)) (res : List (Header × PyVal)),
      hs.foldlM
        (fun acc h => do
          let dv ← derived_cell h (c h)
          if dv ≠ rowVal sv h then Except.ok (acc ++ [(h, rowVal sv h)]) else Except.ok acc)
        acc = Except.ok res →
      ∀ h ∈ hs, ∃ dv, derived_cell h (c h) = Except.ok dv := by
  intro hs
  induction hs with
  | nil => intro acc res _ h hh; simp at hh
  | cons h hs ih =>
    intro acc res hok h2 hh2
    rw [List.foldlM_cons] at hok
    cases hdc : derived_cell h (c h) with
    | error msg =>
      exfalso
      rw [hdc] at hok
      simp [Bind.bind, Except.bind] at hok
    | ok dv =>
      rcases List.mem_cons.mp hh2 with rfl | hh2
      · exact ⟨dv, hdc⟩
      · have hok2 : ∃ acc2, hs.foldlM
            (fun acc h => do
              let dv ← derived_cell h (c h)
              if dv ≠ rowVal sv h then Except.ok (acc ++ [(h, rowVal sv h)]) else Except.ok acc)
            acc2 = Except.ok res := by
          rw [hdc] at hok
          simp only [Bind.bind, Except.bind] at hok
          by_cases hne : dv ≠ rowVal sv h
          · rw [if_pos hne] at hok
            exact ⟨_, hok⟩
          · rw [if_neg hne] at hok
            exact ⟨_, hok⟩
        obtain ⟨acc2, hok2⟩ := hok2
        exact ih acc2 res hok2 h2 hh2

theorem compare_row_eq (sv : SheetRow) (c : Header → String) (D : List (Header × PyVal))
    (hok : compare_row sv c = Except.ok D) :
    D = (SHEET_HEADERS.filter
        (fun h => decide (derived_cell h (c h) ≠ Except.ok (rowVal sv h)))).map
      (fun h => (h, rowVal sv h)) := by
  have hall := compare_row_all_ok sv c SHEET_HEADERS [] D hok
  have hgo := compare_row_go sv c SHEET_HEADERS [] hall
  unfold compare_row at hok
  rw [hok] at hgo
  have h2 := Except.ok.inj hgo
  rw [h2]
  simp

theorem compare_row_nil_of_match (sv : SheetRow) (c : Header → String)
    (hm : ∀ h ∈ SHEET_HEADERS, derived_cell h (c h) = Except.ok (rowVal sv h)) :
    compare_row sv c = Except.ok [] := by
  unfold compare_row
  rw [compare_row_go sv c SHEET_HEADERS [] (fun h hh => ⟨_, hm h hh⟩)]
  have hfil : SHEET_HEADERS.filter
      (fun h => decide (derived_cell h (c h) ≠ Except.ok (rowVal sv h))) = [] := by
    apply List.filter_eq_nil_iff.mpr
    intro h hh
    simp [hm h hh]
  rw [hfil]
  rfl

/-! ## Lemmas: the written canonical row reads back equal -/

theorem entry_to_sheet_row_ok (off : Nat) (projects : Nat → Option String) (e : TimeEntry)
    (sv : SheetRow) (hok : entry_to_sheet_row off projects e = Except.ok sv) :
    (e.stop : Int) - (e.start : Int) = e.duration
    ∧ sv = { Date := dayLabel ((e.start + off) / 86400)
             toggl_id := (e.id : Int)
             Start := format_time ((e.start + off) / 3600 % 24) ((e.start + off) / 60 % 60)
             End := format_time ((e.stop + off) / 3600 % 24) ((e.stop + off) / 60 % 60)
             Project := (e.pid.bind projects).map (fun name => marker ++ name)
             Description := marker ++ e.description
             Duration := durationStr ((e.stop : Int) - (e.start : Int)) } := by
  rw [entry_to_sheet_row_eq] at hok
  by_cases hc : (e.stop : Int) - (e.start : Int) ≠ e.duration
  · rw [if_pos hc] at hok
    exact absurd hok (by simp)
  · rw [if_neg hc] at hok
    exact ⟨Decidable.not_not.mp hc, (Except.ok.inj hok).symm⟩

theorem canonical_roundtrip (off : Nat) (projects : Nat → Option String) (e : TimeEntry)
    (sv : SheetRow) (hok : entry_to_sheet_row off projects e = Except.ok sv)
    (hproj : ∃ name, e.pid.bind projects = Option.some name ∧ name ≠ "")
    (hdesc : e.description ≠ "") :
    ∀ h, derived_cell h (storeCell (rowVal sv h)) = Except.ok (rowVal sv h) := by
  obtain ⟨hdur, hsv⟩ := entry_to_sheet_row_ok off projects e sv hok
  obtain ⟨name, hname, hname0⟩ := hproj
  have hDate : sv.Date = dayLabel ((e.start + off) / 86400) := by rw [hsv]
  have hId : sv.toggl_id = (e.id : Int) := by rw [hsv]
  have hStart : sv.Start =
      format_time ((e.start + off) / 3600 % 24) ((e.start + off) / 60 % 60) := by rw [hsv]
  have hEnd : sv.End =
      format_time ((e.stop + off) / 3600 % 24) ((e.stop + off) / 60 % 60) := by rw [hsv]
  have hProj : sv.Project = Option.some (marker ++ name) := by
    rw [hsv]
    show (e.pid.bind projects).map (fun name => marker ++ name) = _
    rw [hname]
    rfl
  have hDesc : sv.Description = marker ++ e.description := by rw [hsv]
  have hDur : sv.Duration = durationStr ((e.stop : Int) - (e.start : Int)) := by rw [hsv]
  intro h
  cases h with
  | Date =>
    show Except.ok (PyVal.str (storeStr sv.Date)) = Except.ok (PyVal.str sv.Date)
    rw [hDate, storeStr_of_head_ne (dayLabel ((e.start + off) / 86400))
      (natToString_head_ne_apos _)]
  | toggl_id =>
    show (match parseInt (storeCell (PyVal.int sv.toggl_id)) with
      | Option.some i => Except.ok (PyVal.int i)
      | Option.none => Except.error "invalid id cell") = Except.ok (PyVal.int sv.toggl_id)
    rw [hId]
    have hp : parseInt (storeCell (PyVal.int (e.id : Int))) = Option.some ((e.id : Nat) : Int) :=
      parseInt_natToString e.id
    rw [hp]
  | Start =>
    show Except.ok (PyVal.str (storeStr sv.Start)) = Except.ok (PyVal.str sv.Start)
    rw [hStart,
      storeStr_of_head_ne _ (format_time_head_ne_apos _ _ (Nat.mod_lt _ (by omega)))]
  | End =>
    show Except.ok (PyVal.str (storeStr sv.End)) = Except.ok (PyVal.str sv.End)
    rw [hEnd,
      storeStr_of_head_ne _ (format_time_head_ne_apos _ _ (Nat.mod_lt _ (by omega)))]
  | Project =>
    have hval : rowVal sv Header.Project = PyVal.str (marker ++ name) := by
      unfold rowVal
      rw [hProj]
    rw [hval]
    show derived_cell Header.Project (storeStr (marker ++ name)) =
      Except.ok (PyVal.str (marker ++ name))
    rw [storeStr_marker]
    show Except.ok (PyVal.str (if name = "" then name else marker ++ name)) = _
    rw [if_neg hname0]
  | Description =>
    have hval : rowVal sv Header.Description = PyVal.str (marker ++ e.description) := by
      unfold rowVal
      rw [hDesc]
    rw [hval]
    show derived_cell Header.Description (storeStr (marker ++ e.description)) =
      Except.ok (PyVal.str (marker ++ e.description))
    rw [storeStr_marker]
    show Except.ok (PyVal.str
      (if e.description = "" then e.description else marker ++ e.description)) = _
    rw [if_neg hdesc]
  | Duration =>
    show Except.ok (PyVal.str (storeStr sv.Duration)) = Except.ok (PyVal.str sv.Duration)
    rw [hDur, storeStr_of_head_ne _ (durationStr_head_ne_apos _)]

/-! ## Lemmas: write blocks of one record -/

theorem headers_filter_self (h : Header) :
    SHEET_HEADERS.filter (fun h2 => decide (h2 = h)) = [h] := by
  cases h <;> rfl

theorem writes_at_map_row_ne (D : List (Header × PyVal)) (r0 r : Nat) (h : Header)
    (hne : r ≠ r0) :
    writes_at (D.map (fun p => (r0, p.1, p.2))) r h = [] := by
  apply writes_at_nil_of_row_ne
  intro w hw
  obtain ⟨p, _, hpe⟩ := List.mem_map.mp hw
  rw [← hpe]
  exact fun hc => hne hc.symm

theorem writes_at_map_row_eq (r0 : Nat) (h : Header) :
    ∀ (D : List (Header × PyVal)),
      writes_at (D.map (fun p => (r0, p.1, p.2))) r0 h =
        (D.filter (fun p => decide (p.1 = h))).map (fun p => (r0, p.1, p.2)) := by
  intro D
  induction D with
  | nil => rfl
  | cons p D ih =>
    simp only [List.map_cons]
    unfold writes_at at ih ⊢
    rw [List.filter_cons, List.filter_cons]
    by_cases hp : p.1 = h
    · rw [if_pos (by simp [hp]), if_pos (by simp [hp]), List.map_cons, ih]
    · rw [if_neg (by simp [hp]), if_neg (by simp [hp]), ih]

theorem writes_at_append_block (a : Nat) (f : Header → PyVal) (r : Nat) (h : Header) :
    writes_at (SHEET_HEADERS.map (fun h2 => (a, h2, f h2))) r h =
      if r = a then [(a, h, f h)] else [] := by
  by_cases hr : r = a
  · subst hr
    rw [if_pos rfl]
    cases h <;> simp [writes_at, SHEET_HEADERS]
  · rw [if_neg hr]
    apply writes_at_nil_of_row_ne
    intro w hw
    obtain ⟨h2, _, hpe⟩ := List.mem_map.mp hw
    rw [← hpe]
    exact fun hc => hr hc.symm

/-- The precise per-record step: either the record is indexed and its
block is the changed-field updates of its row, or it is appended as a
full-row block at the cursor. -/
theorem sync_entry_block (off : Nat) (projects : Nat → Option String) (month : Nat)
    (st : SyncState) (e : TimeEntry) (st2 : SyncState)
    (hok : sync_entry off projects month st e = Except.ok st2) :
    st2.map = st.map
    ∧ ∃ sv, entry_to_sheet_row off projects e = Except.ok sv
      ∧ ((∃ r0 c0 D, st.map (e.id : Int) = Option.some (r0, c0)
            ∧ compare_row sv c0 = Except.ok D
            ∧ st2.update_cells = st.update_cells ++ D.map (fun p => (r0, p.1, p.2))
            ∧ st2.append_row = st.append_row)
        ∨ (st.map (e.id : Int) = Option.none
            ∧ st2.update_cells = st.update_cells ++
                SHEET_HEADERS.map (fun h => (st.append_row, h, rowVal sv h))
            ∧ st2.append_row = st.append_row + 1)) := by
  unfold sync_entry at hok
  cases hx : entry_to_sheet_row off projects e with
  | error msg =>
    rw [hx] at hok
    simp [Bind.bind, Except.bind] at hok
  | ok sv =>
    rw [hx] at hok
    simp only [Bind.bind, Except.bind] at hok
    cases hmap : st.map (e.id : Int) with
    | some pair =>
      obtain ⟨row, sheet_row⟩ := pair
      rw [hmap] at hok
      simp only [] at hok
      cases hc : compare_row sv sheet_row with
      | error msg =>
        rw [hc] at hok
        simp at hok
      | ok diffs =>
        rw [hc] at hok
        simp only [] at hok
        by_cases hd : diffs ≠ []
        · rw [if_pos hd] at hok
          have h2 := Except.ok.inj hok
          subst h2
          exact ⟨rfl, sv, rfl, Or.inl ⟨row, sheet_row, diffs, rfl, hc, rfl, rfl⟩⟩
        · rw [if_neg hd] at hok
          have h2 := Except.ok.inj hok
          subst h2
          refine ⟨rfl, sv, rfl, Or.inl ⟨row, sheet_row, diffs, rfl, hc, ?_, rfl⟩⟩
          rw [Decidable.not_not.mp hd]
          simp
    | none =>
      rw [hmap] at hok
      simp only [] at hok
      have h2 := Except.ok.inj hok
      subst h2
      exact ⟨rfl, sv, rfl, Or.inr ⟨rfl, rfl, rfl⟩⟩

/-- The write structure of a whole reconciliation pass from a loaded
index: the staged writes split into per-record blocks; every write
targets an indexed row of some processed record or the appended band;
every appended-band row is a full-row block of exactly one record; and
every processed record owns a row — its indexed row carrying updates for
exactly the fields whose re-derived value differs, or an appended row
carrying its full block. -/
theorem sync_run_places (off : Nat) (projects : Nat → Option String) (month : Nat)
    (m0 : IdMap) (ar0 : Nat)
    (hinj : ∀ k1 k2 r c1 c2, m0 k1 = Option.some (r, c1) → m0 k2 = Option.some (r, c2) →
      k1 = k2)
    (hbelow : ∀ k r c, m0 k = Option.some (r, c) → r < ar0) :
    ∀ (entries : List TimeEntry) (st stF : SyncState),
      st.map = m0 → ar0 ≤ st.append_row →
      (entries.map TimeEntry.id).Nodup →
      entries.foldlM (sync_entry off projects month) st = Except.ok stF →
      ∃ ws2, stF.update_cells = st.update_cells ++ ws2
        ∧ stF.map = m0
        ∧ st.append_row ≤ stF.append_row
        ∧ (∀ w ∈ ws2,
            (∃ e2 ∈ entries, ∃ c2, m0 (e2.id : Int) = Option.some (w.1, c2))
            ∨ (st.append_row ≤ w.1 ∧ w.1 < stF.append_row))
        ∧ (∀ a, st.append_row ≤ a → a < stF.append_row →
            ∃ e2 ∈ entries, ∃ sv2, entry_to_sheet_row off projects e2 = Except.ok sv2
              ∧ m0 (e2.id : Int) = Option.none
              ∧ ∀ h, writes_at ws2 a h = [(a, h, rowVal sv2 h)])
        ∧ (∀ e2 ∈ entries, ∃ sv2, entry_to_sheet_row off projects e2 = Except.ok sv2
            ∧ ((∃ r0 c0, m0 (e2.id : Int) = Option.some (r0, c0)
                  ∧ ∀ h, writes_at ws2 r0 h =
                      (if derived_cell h (c0 h) ≠ Except.ok (rowVal sv2 h)
                      then [(r0, h, rowVal sv2 h)] else []))
              ∨ (m0 (e2.id : Int) = Option.none
                  ∧ ∃ a, st.append_row ≤ a ∧ a < stF.append_row
                      ∧ ∀ h, writes_at ws2 a h = [(a, h, rowVal sv2 h)]))) := by
  intro entries
  induction entries with
  | nil =>
    intro st stF hm har hnd hfold
    have h2 : Except.ok st = Except.ok stF := hfold
    have h3 := Except.ok.inj h2
    subst h3
    refine ⟨[], by simp, hm, le_rfl, by simp, ?_, by simp⟩
    intro a ha1 ha2
    omega
  | cons e rest ih =>
    intro st stF hm har hnd hfold
    have hnd1 : e.id ∉ rest.map TimeEntry.id := by
      rw [List.map_cons] at hnd
      exact (List.nodup_cons.mp hnd).1
    have hnd2 : (rest.map TimeEntry.id).Nodup := by
      rw [List.map_cons] at hnd
      exact (List.nodup_cons.mp hnd).2
    have hid_ne : ∀ e2 ∈ rest, e2.id ≠ e.id := by
      intro e2 he2 hcon
      exact hnd1 (hcon ▸ List.mem_map_of_mem TimeEntry.id he2)
    rw [List.foldlM_cons] at hfold
    cases h1 : sync_entry off projects month st e with
    | error msg =>
      rw [h1] at hfold
      simp [Bind.bind, Except.bind] at hfold
    | ok st1 =>
      rw [h1] at hfold
      simp only [Bind.bind, Except.bind] at hfold
      obtain ⟨hmap1, sv, hsv, hcase⟩ := sync_entry_block off projects month st e st1 h1
      rcases hcase with ⟨r0, c0, D, hm0e, hcmp, hupd1, har1⟩ | ⟨hm0e, hupd1, har1⟩
      · -- e is an indexed record updated in place at r0
        have hm0e2 : m0 (e.id : Int) = Option.some (r0, c0) := hm ▸ hm0e
        have hr0 : r0 < ar0 := hbelow _ _ _ hm0e2
        obtain ⟨wsR, hupdR, hmapF, harF, hclassR, hbandR, hplaceR⟩ :=
          ih st1 stF (hmap1.trans hm) (har.trans (le_of_eq har1.symm)) hnd2 hfold
        have harF2 : st.append_row ≤ stF.append_row := le_of_eq har1.symm |>.trans harF
        have hD := compare_row_eq sv c0 D hcmp
        have hwsR_not_r0 : ∀ w ∈ wsR, w.1 ≠ r0 := by
          intro w hw hcon
          rcases hclassR w hw with ⟨e2, he2, c2, hk⟩ | ⟨hge, _⟩
          · rw [hcon] at hk
            exact hid_ne e2 he2 (Nat.cast_inj.mp (hinj _ _ _ _ _ hk hm0e2))
          · rw [har1] at hge
            omega
        refine ⟨D.map (fun p => (r0, p.1, p.2)) ++ wsR, ?_, hmapF, harF2, ?_, ?_, ?_⟩
        · rw [hupdR, hupd1, List.append_assoc]
        · intro w hw
          rcases List.mem_append.mp hw with hw | hw
          · obtain ⟨p, _, hpe⟩ := List.mem_map.mp hw
            exact Or.inl ⟨e, List.mem_cons_self _ _, c0, by rw [← hpe]; exact hm0e2⟩
          · rcases hclassR w hw with ⟨e2, he2, c2, hk⟩ | ⟨hge, hlt⟩
            · exact Or.inl ⟨e2, List.mem_cons_of_mem _ he2, c2, hk⟩
            · exact Or.inr ⟨le_of_eq har1.symm |>.trans hge, hlt⟩
        · intro a ha1 ha2
          have ha1R : st1.append_row ≤ a := by rw [har1]; exact ha1
          obtain ⟨e2, he2, sv2, hsv2, hnone2, hw2⟩ := hbandR a ha1R ha2
          refine ⟨e2, List.mem_cons_of_mem _ he2, sv2, hsv2, hnone2, ?_⟩
          intro h
          rw [writes_at_append, writes_at_map_row_ne D r0 a h (by omega), List.nil_append]
          exact hw2 h
        · intro e2 he2
          rcases List.mem_cons.mp he2 with rfl | he2
          · refine ⟨sv, hsv, Or.inl ⟨r0, c0, hm0e2, ?_⟩⟩
            intro h
            rw [writes_at_append, writes_at_nil_of_row_ne wsR r0 h hwsR_not_r0,
              List.append_nil, writes_at_map_row_eq, hD]
            have hfm : ((SHEET_HEADERS.filter
                (fun h2 => decide (derived_cell h2 (c0 h2) ≠ Except.ok (rowVal sv h2)))).map
                  (fun h2 => (h2, rowVal sv h2))).filter (fun p => decide (p.1 = h)) =
                ((SHEET_HEADERS.filter
                  (fun h2 => decide (derived_cell h2 (c0 h2) ≠ Except.ok (rowVal sv h2)))).filter
                    (fun h2 => decide (h2 = h))).map (fun h2 => (h2, rowVal sv h2)) := by
              rw [List.filter_map]
              rfl
            rw [hfm, List.filter_comm, headers_filter_self]
            by_cases hp : derived_cell h (c0 h) ≠ Except.ok (rowVal sv h)
            · rw [if_pos hp, List.filter_cons, if_pos (by simpa using hp)]
              rfl
            · rw [if_neg hp, List.filter_cons, if_neg (by simpa using hp)]
              rfl
          · obtain ⟨sv2, hsv2, hplace⟩ := hplaceR e2 he2
            refine ⟨sv2, hsv2, ?_⟩
            rcases hplace with ⟨r2, c2, hm2, hw2⟩ | ⟨hnone2, a2, ha21, ha22, hw2⟩
            · refine Or.inl ⟨r2, c2, hm2, ?_⟩
              intro h
              have hr2ne : r2 ≠ r0 := by
                intro hcon
                rw [hcon] at hm2
                exact hid_ne e2 he2 (Nat.cast_inj.mp (hinj _ _ _ _ _ hm2 hm0e2))
              rw [writes_at_append, writes_at_map_row_ne D r0 r2 h hr2ne, List.nil_append]
              exact hw2 h
            · refine Or.inr ⟨hnone2, a2, ?_, ha22, ?_⟩
              · rw [har1] at ha21
                exact ha21
              · intro h
                have ha2ne : a2 ≠ r0 := by
                  rw [har1] at ha21
                  omega
                rw [writes_at_append, writes_at_map_row_ne D r0 a2 h ha2ne, List.nil_append]
                exact hw2 h
      · -- e is appended at the cursor
        have hm0e2 : m0 (e.id : Int) = Option.none := hm ▸ hm0e
        obtain ⟨wsR, hupdR, hmapF, harF, hclassR, hbandR, hplaceR⟩ :=
          ih st1 stF (hmap1.trans hm) (by rw [har1]; omega) hnd2 hfold
        have harF2 : st.append_row ≤ stF.append_row := by
          rw [har1] at harF
          omega
        have hcursorF : st.append_row < stF.append_row := by
          rw [har1] at harF
          omega
        have hwsR_not_cursor : ∀ w ∈ wsR, w.1 ≠ st.append_row := by
          intro w hw hcon
          rcases hclassR w hw with ⟨e2, he2, c2, hk⟩ | ⟨hge, _⟩
          · have := hbelow _ _ _ hk
            rw [hcon] at this
            omega
          · rw [har1] at hge
            omega
        have hblock : ∀ a h, writes_at
            (SHEET_HEADERS.map (fun h2 => (st.append_row, h2, rowVal sv h2))) a h =
            if a = st.append_row then [(st.append_row, h, rowVal sv h)] else [] :=
          fun a h => writes_at_append_block st.append_row (rowVal sv) a h
        refine ⟨SHEET_HEADERS.map (fun h2 => (st.append_row, h2, rowVal sv h2)) ++ wsR,
          ?_, hmapF, harF2, ?_, ?_, ?_⟩
        · rw [hupdR, hupd1, List.append_assoc]
        · intro w hw
          rcases List.mem_append.mp hw with hw | hw
          · obtain ⟨h2, _, hpe⟩ := List.mem_map.mp hw
            refine Or.inr ⟨?_, ?_⟩
            · rw [← hpe]
            · rw [← hpe]
              exact hcursorF
          · rcases hclassR w hw with ⟨e2, he2, c2, hk⟩ | ⟨hge, hlt⟩
            · exact Or.inl ⟨e2, List.mem_cons_of_mem _ he2, c2, hk⟩
            · refine Or.inr ⟨?_, hlt⟩
              rw [har1] at hge
              omega
        · intro a ha1 ha2
          by_cases hacur : a = st.append_row
          · subst hacur
            refine ⟨e, List.mem_cons_self _ _, sv, hsv, hm0e2, ?_⟩
            intro h
            rw [writes_at_append, hblock, if_pos rfl,
              writes_at_nil_of_row_ne wsR st.append_row h hwsR_not_cursor, List.append_nil]
          · have ha1R : st1.append_row ≤ a := by
              rw [har1]
              omega
            obtain ⟨e2, he2, sv2, hsv2, hnone2, hw2⟩ := hbandR a ha1R ha2
            refine ⟨e2, List.mem_cons_of_mem _ he2, sv2, hsv2, hnone2, ?_⟩
            intro h
            rw [writes_at_append, hblock, if_neg hacur, List.nil_append]
            exact hw2 h
        · intro e2 he2
          rcases List.mem_cons.mp he2 with rfl | he2
          · refine ⟨sv, hsv, Or.inr ⟨hm0e2, st.append_row, le_rfl, hcursorF, ?_⟩⟩
            intro h
            rw [writes_at_append, hblock, if_pos rfl,
              writes_at_nil_of_row_ne wsR st.append_row h hwsR_not_cursor, List.append_nil]
          · obtain ⟨sv2, hsv2, hplace⟩ := hplaceR e2 he2
            refine ⟨sv2, hsv2, ?_⟩
            rcases hplace with ⟨r2, c2, hm2, hw2⟩ | ⟨hnone2, a2, ha21, ha22, hw2⟩
            · refine Or.inl ⟨r2, c2, hm2, ?_⟩
              intro h
              have hr2ne : r2 ≠ st.append_row := by
                have := hbelow _ _ _ hm2
                omega
              rw [writes_at_append, hblock, if_neg hr2ne, List.nil_append]
              exact hw2 h
            · refine Or.inr ⟨hnone2, a2, ?_, ha22, ?_⟩
              · rw [har1] at ha21
                omega
              · intro h
                have ha2ne : a2 ≠ st.append_row := by
                  rw [har1] at ha21
                  omega
                rw [writes_at_append, hblock, if_neg ha2ne, List.nil_append]
                exact hw2 h

/-! ## Lemmas: towards idempotence (claim C1) -/

theorem build_index_ok_valid (s : Sheet) :
    ∀ (L : List Nat) (acc res : IdMap × Nat),
      L.foldlM (index_step s) acc = Except.ok res →
      ∀ r ∈ L, s.cells r Header.toggl_id ≠ "" →
        (parseInt (s.cells r Header.toggl_id)).isSome = true := by
  intro L
  induction L with
  | nil =>
    intro acc res hok r hr
    simp at hr
  | cons a L ih =>
    intro acc res hok r hr hne
    rw [List.foldlM_cons] at hok
    cases hstep : index_step s acc a with
    | error msg =>
      rw [hstep] at hok
      simp [Bind.bind, Except.bind] at hok
    | ok acc1 =>
      rw [hstep] at hok
      simp only [Bind.bind, Except.bind] at hok
      rcases List.mem_cons.mp hr with rfl | hr2
      · unfold index_step at hstep
        rw [if_neg hne] at hstep
        cases hp : parseInt (s.cells r Header.toggl_id) with
        | some v => rfl
        | none =>
          rw [hp] at hstep
          exact absurd hstep (by simp)
      · exact ih acc1 res hok r hr2 hne

theorem build_index_none (s : Sheet) :
    ∀ (L : List Nat) (acc res : IdMap × Nat),
      L.foldlM (index_step s) acc = Except.ok res →
      ∀ k, res.1 k = Option.none →
        acc.1 k = Option.none ∧ ∀ r ∈ L, ¬ rowHasId s r k := by
  intro L
  induction L with
  | nil =>
    intro acc res hok k hnone
    have h2 : Except.ok acc = Except.ok res := hok
    have h3 := Except.ok.inj h2
    subst h3
    exact ⟨hnone, by simp⟩
  | cons a L ih =>
    intro acc res hok k hnone
    rw [List.foldlM_cons] at hok
    cases hstep : index_step s acc a with
    | error msg =>
      rw [hstep] at hok
      simp [Bind.bind, Except.bind] at hok
    | ok acc1 =>
      rw [hstep] at hok
      simp only [Bind.bind, Except.bind] at hok
      obtain ⟨hacc1, hL⟩ := ih acc1 res hok k hnone
      unfold index_step at hstep
      by_cases hcell : s.cells a Header.toggl_id = ""
      · rw [if_pos hcell] at hstep
        have hae := Except.ok.inj hstep
        subst hae
        refine ⟨hacc1, ?_⟩
        intro r hr
        rcases List.mem_cons.mp hr with rfl | hr2
        · exact fun hcon => hcon.1 hcell
        · exact hL r hr2
      · rw [if_neg hcell] at hstep
        cases hp : parseInt (s.cells a Header.toggl_id) with
        | none =>
          rw [hp] at hstep
          exact absurd hstep (by simp)
        | some id0 =>
          rw [hp] at hstep
          have hae : acc1 = (fun k2 =>
              if k2 = id0 then Option.some (a, s.cells a) else acc.1 k2,
              if a ≥ acc.2 then a + 1 else acc.2) := (Except.ok.inj hstep).symm
          rw [hae] at hacc1
          have hk2 : (if k = id0 then Option.some (a, s.cells a) else acc.1 k) =
              Option.none := hacc1
          by_cases hk : k = id0
          · rw [if_pos hk] at hk2
            exact absurd hk2 (by simp)
          · rw [if_neg hk] at hk2
            refine ⟨hk2, ?_⟩
            intro r hr
            rcases List.mem_cons.mp hr with rfl | hr2
            · intro hcon
              rw [hcon.2] at hp
              exact hk (Option.some.inj hp)
            · exact hL r hr2

theorem next_append_go_le (s : Sheet) :
    ∀ (L : List Nat) (acc B : Nat), (∀ r ∈ L, r + 1 ≤ B) →
      L.foldl (fun a r => if s.cells r Header.toggl_id ≠ "" then max a (r+1) else a) acc ≤
        max acc B := by
  intro L
  induction L with
  | nil =>
    intro acc B hall
    exact Nat.le_max_left _ _
  | cons a L ih =>
    intro acc B hall
    rw [List.foldl_cons]
    have h1 := ih (if s.cells a Header.toggl_id ≠ "" then max acc (a+1) else acc) B
      (fun r hr => hall r (List.mem_cons_of_mem _ hr))
    refine le_trans h1 ?_
    by_cases hc : s.cells a Header.toggl_id ≠ ""
    · rw [if_pos hc]
      have ha := hall a (List.mem_cons_self _ _)
      omega
    · rw [if_neg hc]

theorem next_append_over_le (s : Sheet) (L : List Nat) (B : Nat)
    (hall : ∀ r ∈ L, r + 1 ≤ B) (h2B : 2 ≤ B) : next_append_over s L ≤ B := by
  have h := next_append_go_le s L 2 B hall
  unfold next_append_over
  omega

theorem natToString_ne_empty (n : Nat) : natToString n ≠ "" := by
  intro hcon
  have h2 : (natToString n).data = [] := by rw [hcon]
  exact natToString_data_ne_nil n h2

theorem sync_entry_unchanged (off : Nat) (projects : Nat → Option String) (month : Nat)
    (st : SyncState) (e : TimeEntry) (sv : SheetRow) (r : Nat) (c : Header → String)
    (hsv : entry_to_sheet_row off projects e = Except.ok sv)
    (hmap : st.map (e.id : Int) = Option.some (r, c))
    (hcmp : compare_row sv c = Except.ok []) :
    sync_entry off projects month st e = Except.ok
      { st with
        summary_weeks := add_duration st.summary_weeks
          (start_of_week ((e.start + off) / 86400)) e.duration
        summary_months := add_duration st.summary_months month e.duration
        unchanged := st.unchanged + 1 } := by
  unfold sync_entry
  rw [hsv]
  simp only [Bind.bind, Except.bind]
  rw [hmap]
  simp only []
  rw [hcmp]
  simp only []
  rw [if_neg (by simp)]

theorem sync_fold_unchanged (off : Nat) (projects : Nat → Option String) (month : Nat) :
    ∀ (entries : List TimeEntry) (st : SyncState),
      (∀ e ∈ entries, ∃ sv r c, entry_to_sheet_row off projects e = Except.ok sv
        ∧ st.map (e.id : Int) = Option.some (r, c)
        ∧ compare_row sv c = Except.ok []) →
      ∃ stF, entries.foldlM (sync_entry off projects month) st = Except.ok stF
        ∧ stF.update_cells = st.update_cells
        ∧ stF.added = st.added
        ∧ stF.updated = st.updated
        ∧ stF.unchanged = st.unchanged + entries.length := by
  intro entries
  induction entries with
  | nil =>
    intro st hall
    exact ⟨st, rfl, rfl, rfl, rfl, by simp⟩
  | cons e rest ih =>
    intro st hall
    obtain ⟨sv, r, c, hsv, hmap, hcmp⟩ := hall e (List.mem_cons_self _ _)
    have hstep := sync_entry_unchanged off projects month st e sv r c hsv hmap hcmp
    obtain ⟨stF, hfold, hu, ha, hup, hun⟩ := ih
      { st with
        summary_weeks := add_duration st.summary_weeks
          (start_of_week ((e.start + off) / 86400)) e.duration
        summary_months := add_duration st.summary_months month e.duration
        unchanged := st.unchanged + 1 }
      (fun e2 he2 => hall e2 (List.mem_cons_of_mem _ he2))
    refine ⟨stF, ?_, hu, ha, hup, ?_⟩
    · rw [List.foldlM_cons, hstep]
      simp only [Bind.bind, Except.bind]
      exact hfold
    · have hun2 : stF.unchanged = st.unchanged + 1 + rest.length := hun
      have hl : (e :: rest).length = rest.length + 1 := rfl
      omega

/-- Claim C1 (amended): reconciliation is idempotent for record sets with
pairwise-distinct ids whose project id resolves to a non-empty project
name and whose description is non-empty.  After a completed first run, a
second run over the same records and the written sheet stages zero cell
writes, adds and updates nothing, and counts every record as unchanged.
The unrestricted claim is refuted by the counterexample: a record
without a project stores Project as the empty cell, which re-derives to
the empty string while the canonical row holds None, so the record is
re-staged as updated on every run. -/
theorem C1_idempotence (off : Nat) (projects : Nat → Option String) (month : Nat)
    (sheet : Sheet) (entries : List TimeEntry)
    (hids : (entries.map TimeEntry.id).Nodup)
    (hproj : ∀ e ∈ entries, ∃ name, e.pid.bind projects = Option.some name ∧ name ≠ "")
    (hdesc : ∀ e ∈ entries, e.description ≠ "")
    (sheet1 : Sheet) (st1 : SyncState)
    (hrun1 : sync_month off projects month sheet entries = Except.ok (sheet1, st1)) :
    ∃ st2, sync_month off projects month sheet1 entries = Except.ok (sheet1, st2)
      ∧ st2.update_cells = []
      ∧ st2.added = 0
      ∧ st2.updated = 0
      ∧ st2.unchanged = entries.length := by
  unfold sync_month at hrun1
  cases hidx : build_index sheet with
  | error msg =>
    rw [hidx] at hrun1
    simp [Bind.bind, Except.bind] at hrun1
  | ok pair =>
    obtain ⟨m0, ar0⟩ := pair
    rw [hidx] at hrun1
    simp only [Bind.bind, Except.bind] at hrun1
    cases hfold : entries.foldlM (sync_entry off projects month)
        { map := m0, append_row := ar0, update_cells := [], added := 0, updated := 0,
          unchanged := 0, summary_weeks := [], summary_months := [] } with
    | error msg =>
      rw [hfold] at hrun1
      simp at hrun1
    | ok stF =>
      rw [hfold] at hrun1
      simp only [] at hrun1
      have hpair := Except.ok.inj hrun1
      have hsheet1 : sheet1 = apply_writes sheet stF.update_cells :=
        (congrArg Prod.fst hpair).symm
      have hvalid : ∀ r ∈ sheet_rows sheet, sheet.cells r Header.toggl_id ≠ "" →
          (parseInt (sheet.cells r Header.toggl_id)).isSome = true :=
        build_index_ok_valid sheet (sheet_rows sheet) (fun _ => Option.none, 2) (m0, ar0) hidx
      obtain ⟨m0x, ar0x, hfold0, hchar0, har0⟩ := build_index_spec sheet hvalid
      rw [hidx] at hfold0
      have hpair0 := Except.ok.inj hfold0
      have hm0 : m0 = m0x := congrArg Prod.fst hpair0
      have har0x2 : ar0 = ar0x := congrArg Prod.snd hpair0
      subst hm0
      subst har0x2
      have hnone0 : ∀ k, m0 k = Option.none → ∀ r ∈ sheet_rows sheet,
          ¬ rowHasId sheet r k := by
        intro k hk
        exact (build_index_none sheet (sheet_rows sheet) (fun _ => Option.none, 2)
          (m0, ar0) hidx k hk).2
      have hbelow : ∀ k r c, m0 k = Option.some (r, c) → r < ar0 := by
        intro k r c hk
        obtain ⟨hmem, _, hid, _⟩ := (hchar0 k r c).mp hk
        have := next_append_over_ge sheet (sheet_rows sheet) r hmem hid.1
        rw [har0]
        unfold specNextAppendRow
        omega
      have hinj : ∀ k1 k2 r c1 c2, m0 k1 = Option.some (r, c1) →
          m0 k2 = Option.some (r, c2) → k1 = k2 := by
        intro k1 k2 r c1 c2 h1 h2
        obtain ⟨_, _, hid1, _⟩ := (hchar0 k1 r c1).mp h1
        obtain ⟨_, _, hid2, _⟩ := (hchar0 k2 r c2).mp h2
        have hp1 : parseInt (sheet.cells r Header.toggl_id) = Option.some k1 := hid1.2
        have hp2 : parseInt (sheet.cells r Header.toggl_id) = Option.some k2 := hid2.2
        rw [hp1] at hp2
        exact Option.some.inj hp2
      obtain ⟨W, hWupd, hWmap, hWar, hWclass, hWband, hWplace⟩ :=
        sync_run_places off projects month m0 ar0 hinj hbelow entries
          { map := m0, append_row := ar0, update_cells := [], added := 0, updated := 0,
            unchanged := 0, summary_weeks := [], summary_months := [] } stF
          rfl le_rfl hids hfold
      have hupdW : stF.update_cells = [] ++ W := hWupd
      rw [List.nil_append] at hupdW
      have hWar2 : ar0 ≤ stF.append_row := hWar
      have hclass : ∀ w ∈ W,
          (∃ e2 ∈ entries, ∃ c2, m0 (e2.id : Int) = Option.some (w.1, c2))
          ∨ (ar0 ≤ w.1 ∧ w.1 < stF.append_row) := hWclass
      have hband : ∀ a, ar0 ≤ a → a < stF.append_row →
          ∃ e2 ∈ entries, ∃ sv2, entry_to_sheet_row off projects e2 = Except.ok sv2
            ∧ m0 (e2.id : Int) = Option.none
            ∧ ∀ h, writes_at W a h = [(a, h, rowVal sv2 h)] := hWband
      have hplace : ∀ e2 ∈ entries, ∃ sv2,
          entry_to_sheet_row off projects e2 = Except.ok sv2
          ∧ ((∃ r0 c0, m0 (e2.id : Int) = Option.some (r0, c0)
                ∧ ∀ h, writes_at W r0 h =
                    (if derived_cell h (c0 h) ≠ Except.ok (rowVal sv2 h)
                    then [(r0, h, rowVal sv2 h)] else []))
            ∨ (m0 (e2.id : Int) = Option.none
                ∧ ∃ a, ar0 ≤ a ∧ a < stF.append_row
                    ∧ ∀ h, writes_at W a h = [(a, h, rowVal sv2 h)])) := hWplace
      have hsheet1W : sheet1 = apply_writes sheet W := by
        rw [hsheet1, hupdW]
      subst hsheet1W
      have hcells1 : ∀ r h, (apply_writes sheet W).cells r h =
          match (writes_at W r h).getLast? with
          | Option.some w => storeCell w.2.2
          | Option.none => sheet.cells r h := fun r h => apply_writes_cells W sheet r h
      have hcell_of_nil : ∀ r h, writes_at W r h = [] →
          (apply_writes sheet W).cells r h = sheet.cells r h := by
        intro r h hnil
        rw [hcells1 r h, hnil]
        rfl
      have hcell_of_single : ∀ r h v, writes_at W r h = [(r, h, v)] →
          (apply_writes sheet W).cells r h = storeCell v := by
        intro r h v hsingle
        rw [hcells1 r h, hsingle]
        rfl
      have hrc_lo : sheet.row_count ≤ (apply_writes sheet W).row_count :=
        row_count_le_apply_writes sheet W
      have har0_ge2 : 2 ≤ ar0 := by
        rw [har0]
        unfold specNextAppendRow next_append_over
        exact foldl_bump_le sheet (sheet_rows sheet) 2
      have har0_le : ar0 ≤ max 2 (sheet.row_count + 1) := by
        rw [har0]
        unfold specNextAppendRow
        apply next_append_over_le
        · intro r hr
          have := (mem_sheet_rows sheet r).mp hr
          omega
        · omega
      have hrc_hi : (apply_writes sheet W).row_count ≤
          max sheet.row_count (stF.append_row - 1) := by
        apply apply_writes_row_count_le
        · omega
        · intro w hw
          rcases hclass w hw with ⟨e2, he2, c2, hk⟩ | ⟨hge, hlt⟩
          · obtain ⟨hmem, _, _, _⟩ := (hchar0 _ _ _).mp hk
            have := (mem_sheet_rows sheet _).mp hmem
            omega
          · omega
      have hder_id : ∀ e ∈ entries, ∀ sv r0 c0,
          entry_to_sheet_row off projects e = Except.ok sv →
          m0 (e.id : Int) = Option.some (r0, c0) →
          derived_cell Header.toggl_id (c0 Header.toggl_id) =
            Except.ok (rowVal sv Header.toggl_id) := by
        intro e he sv r0 c0 hsv hm0e
        obtain ⟨hmem0, hrow0, hid0, _⟩ := (hchar0 _ _ _).mp hm0e
        have hId2 : sv.toggl_id = (e.id : Int) := by
          rw [(entry_to_sheet_row_ok off projects e sv hsv).2]
        have hval : rowVal sv Header.toggl_id = PyVal.int (e.id : Int) := by
          show PyVal.int sv.toggl_id = PyVal.int (e.id : Int)
          rw [hId2]
        have hc0h : c0 Header.toggl_id = sheet.cells r0 Header.toggl_id := by rw [hrow0]
        show (match parseInt (c0 Header.toggl_id) with
          | Option.some i => Except.ok (PyVal.int i)
          | Option.none => Except.error "invalid id cell") = _
        rw [hc0h, hid0.2, hval]
      have hid_written : ∀ r, writes_at W r Header.toggl_id ≠ [] →
          ∃ e2 ∈ entries, ∃ sv2, entry_to_sheet_row off projects e2 = Except.ok sv2
            ∧ m0 (e2.id : Int) = Option.none
            ∧ ∀ h, writes_at W r h = [(r, h, rowVal sv2 h)] := by
        intro r hne
        cases hwz : writes_at W r Header.toggl_id with
        | nil => exact absurd hwz hne
        | cons w rest =>
          have hwmem : w ∈ writes_at W r Header.toggl_id := by
            rw [hwz]
            exact List.mem_cons_self _ _
          obtain ⟨hwW, hwr, hwh⟩ := (mem_writes_at W r Header.toggl_id w).mp hwmem
          rcases hclass w hwW with ⟨e2, he2, c2, hk⟩ | ⟨hge, hlt⟩
          · exfalso
            obtain ⟨sv2, hsv2, hpl2⟩ := hplace e2 he2
            rcases hpl2 with ⟨r2, c0, hm2, hw2⟩ | ⟨hnone2x, _⟩
            · rw [hm2] at hk
              have hpp := Option.some.inj hk
              have hr2 : r2 = w.1 := congrArg Prod.fst hpp
              have hder := hder_id e2 he2 sv2 r2 c0 hsv2 hm2
              have hwnil : writes_at W r2 Header.toggl_id = [] := by
                rw [hw2 Header.toggl_id, if_neg (by simp [hder])]
              rw [hr2, hwr] at hwnil
              rw [hwz] at hwnil
              exact List.noConfusion hwnil
            · rw [hnone2x] at hk
              exact Option.noConfusion hk
          · rw [hwr] at hge hlt
            exact hband r hge hlt
      have hband_id : ∀ r e2 sv2, entry_to_sheet_row off projects e2 = Except.ok sv2 →
          (∀ h, writes_at W r h = [(r, h, rowVal sv2 h)]) →
          rowHasId (apply_writes sheet W) r (e2.id : Int) := by
        intro r e2 sv2 hsv2 hw2
        have hc : (apply_writes sheet W).cells r Header.toggl_id =
            storeCell (rowVal sv2 Header.toggl_id) :=
          hcell_of_single r Header.toggl_id _ (hw2 Header.toggl_id)
        have hId2 : sv2.toggl_id = (e2.id : Int) := by
          rw [(entry_to_sheet_row_ok off projects e2 sv2 hsv2).2]
        have hval : rowVal sv2 Header.toggl_id = PyVal.int (e2.id : Int) := by
          show PyVal.int sv2.toggl_id = PyVal.int (e2.id : Int)
          rw [hId2]
        rw [hval] at hc
        have hstore : storeCell (PyVal.int (e2.id : Int)) = natToString e2.id := rfl
        rw [hstore] at hc
        constructor
        · rw [hc]
          exact natToString_ne_empty e2.id
        · rw [hc]
          exact parseInt_natToString e2.id
      have hvalid2 : ∀ r ∈ sheet_rows (apply_writes sheet W),
          (apply_writes sheet W).cells r Header.toggl_id ≠ "" →
          (parseInt ((apply_writes sheet W).cells r Header.toggl_id)).isSome = true := by
        intro r hr hne
        by_cases hwz : writes_at W r Header.toggl_id = []
        · rw [hcell_of_nil r Header.toggl_id hwz] at hne ⊢
          by_cases hro : r ∈ sheet_rows sheet
          · exact hvalid r hro hne
          · exfalso
            obtain ⟨h2r, hrlt⟩ := (mem_sheet_rows _ r).mp hr
            have hrc0 : sheet.row_count < r := by
              rcases Nat.lt_or_ge sheet.row_count r with h | h
              · exact h
              · exact absurd ((mem_sheet_rows sheet r).mpr ⟨h2r, by omega⟩) hro
            have hr1 : r < stF.append_row := by omega
            have hr0 : ar0 ≤ r := by omega
            obtain ⟨e2, he2, sv2, hsv2, _, hw2⟩ := hband r hr0 hr1
            rw [hw2 Header.toggl_id] at hwz
            exact List.noConfusion hwz
        · obtain ⟨e2, he2, sv2, hsv2, _, hw2⟩ := hid_written r hwz
          have hhas := hband_id r e2 sv2 hsv2 hw2
          rw [hhas.2]
          rfl
      obtain ⟨m2, ar2, hfold2, hchar2, har2⟩ := build_index_spec (apply_writes sheet W) hvalid2
      have hnone2 : ∀ k, m2 k = Option.none →
          ∀ r ∈ sheet_rows (apply_writes sheet W),
            ¬ rowHasId (apply_writes sheet W) r k := by
        intro k hk
        exact (build_index_none (apply_writes sheet W) (sheet_rows (apply_writes sheet W))
          (fun _ => Option.none, 2) (m2, ar2) hfold2 k hk).2
      have hsettle : ∀ e ∈ entries, ∃ sv r c,
          entry_to_sheet_row off projects e = Except.ok sv
          ∧ m2 (e.id : Int) = Option.some (r, c)
          ∧ compare_row sv c = Except.ok [] := by
        intro e he
        obtain ⟨sv, hsv, hpl⟩ := hplace e he
        have hexists : ∃ rw0, rw0 ∈ sheet_rows (apply_writes sheet W) ∧
            rowHasId (apply_writes sheet W) rw0 (e.id : Int) := by
          rcases hpl with ⟨r0, c0, hm0e, hw0⟩ | ⟨hm0e, a, ha1, ha2, hw0⟩
          · obtain ⟨hmem0, hrow0, hid0, _⟩ := (hchar0 _ _ _).mp hm0e
            have hder := hder_id e he sv r0 c0 hsv hm0e
            have hwnil : writes_at W r0 Header.toggl_id = [] := by
              rw [hw0 Header.toggl_id, if_neg (by simp [hder])]
            have hcell : (apply_writes sheet W).cells r0 Header.toggl_id =
                sheet.cells r0 Header.toggl_id := hcell_of_nil r0 Header.toggl_id hwnil
            refine ⟨r0, ?_, ?_⟩
            · rw [mem_sheet_rows] at hmem0 ⊢
              omega
            · constructor
              · rw [hcell]
                exact hid0.1
              · rw [hcell]
                exact hid0.2
          · refine ⟨a, ?_, hband_id a e sv hsv hw0⟩
            rw [mem_sheet_rows]
            constructor
            · omega
            · have hw0t := hw0 Header.toggl_id
              have hmem2 : (a, Header.toggl_id, rowVal sv Header.toggl_id) ∈
                  writes_at W a Header.toggl_id := by
                rw [hw0t]
                exact List.mem_cons_self _ _
              have hwmem : (a, Header.toggl_id, rowVal sv Header.toggl_id) ∈ W :=
                ((mem_writes_at _ _ _ _).mp hmem2).1
              have h2 : a ≤ (apply_writes sheet W).row_count :=
                write_row_le_row_count sheet W _ hwmem
              omega
        cases hm2e : m2 (e.id : Int) with
        | none =>
          exfalso
          obtain ⟨rw0, hrw0, hhas⟩ := hexists
          exact hnone2 _ hm2e rw0 hrw0 hhas
        | some pr =>
          obtain ⟨rmax, cmax⟩ := pr
          obtain ⟨hmemM, hrowM, hidM, hmaxM⟩ := (hchar2 _ _ _).mp hm2e
          refine ⟨sv, rmax, cmax, hsv, rfl, ?_⟩
          apply compare_row_nil_of_match
          intro h hh
          rw [hrowM]
          by_cases hwz : writes_at W rmax Header.toggl_id = []
          · have hcellid : (apply_writes sheet W).cells rmax Header.toggl_id =
                sheet.cells rmax Header.toggl_id := hcell_of_nil rmax Header.toggl_id hwz
            have hhasO : rowHasId sheet rmax (e.id : Int) := by
              constructor
              · rw [← hcellid]
                exact hidM.1
              · rw [← hcellid]
                exact hidM.2
            have hrmax_old : rmax ∈ sheet_rows sheet := by
              rw [mem_sheet_rows]
              obtain ⟨h2m, hltm⟩ := (mem_sheet_rows _ rmax).mp hmemM
              refine ⟨h2m, ?_⟩
              by_contra hcon
              have hr1 : rmax < stF.append_row := by omega
              have hr0 : ar0 ≤ rmax := by omega
              obtain ⟨e3, he3, sv3, hsv3, _, hw3⟩ := hband rmax hr0 hr1
              rw [hw3 Header.toggl_id] at hwz
              exact List.noConfusion hwz
            rcases hpl with ⟨r0, c0, hm0e, hw0⟩ | ⟨hm0e, a, ha1, ha2, hw0⟩
            · obtain ⟨hmem0, hrow0, hid0, hmax0⟩ := (hchar0 _ _ _).mp hm0e
              have hle1 : rmax ≤ r0 := hmax0 rmax hrmax_old hhasO
              have hder := hder_id e he sv r0 c0 hsv hm0e
              have hwnil0 : writes_at W r0 Header.toggl_id = [] := by
                rw [hw0 Header.toggl_id, if_neg (by simp [hder])]
              have hcell0 : (apply_writes sheet W).cells r0 Header.toggl_id =
                  sheet.cells r0 Header.toggl_id := hcell_of_nil r0 Header.toggl_id hwnil0
              have hhas1 : rowHasId (apply_writes sheet W) r0 (e.id : Int) := by
                constructor
                · rw [hcell0]
                  exact hid0.1
                · rw [hcell0]
                  exact hid0.2
              have hmem1 : r0 ∈ sheet_rows (apply_writes sheet W) := by
                rw [mem_sheet_rows] at hmem0 ⊢
                omega
              have hle2 : r0 ≤ rmax := hmaxM r0 hmem1 hhas1
              have hreq : rmax = r0 := le_antisymm hle1 hle2
              rw [hreq]
              by_cases hp : derived_cell h (c0 h) ≠ Except.ok (rowVal sv h)
              · have hw0h : writes_at W r0 h = [(r0, h, rowVal sv h)] := by
                  rw [hw0 h, if_pos hp]
                rw [hcell_of_single r0 h _ hw0h]
                exact canonical_roundtrip off projects e sv hsv (hproj e he) (hdesc e he) h
              · have hw0h : writes_at W r0 h = [] := by
                  rw [hw0 h, if_neg hp]
                rw [hcell_of_nil r0 h hw0h]
                have hc0h : c0 h = sheet.cells r0 h := by rw [hrow0]
                rw [← hc0h]
                exact Decidable.not_not.mp hp
            · exfalso
              exact hnone0 _ hm0e rmax hrmax_old hhasO
          · obtain ⟨e3, he3, sv3, hsv3, hm0n3, hw3⟩ := hid_written rmax hwz
            have hhas3 := hband_id rmax e3 sv3 hsv3 hw3
            have hkey : (e3.id : Int) = (e.id : Int) := by
              have h1 := hhas3.2
              rw [hidM.2] at h1
              exact (Option.some.inj h1).symm
            have he3e : e3 = e :=
              List.inj_on_of_nodup_map hids he3 he (Nat.cast_inj.mp hkey)
            subst he3e
            have hsveq : sv3 = sv := by
              rw [hsv] at hsv3
              exact (Except.ok.inj hsv3).symm
            subst hsveq
            rw [hcell_of_single rmax h _ (hw3 h)]
            exact canonical_roundtrip off projects e3 sv3 hsv (hproj e3 he) (hdesc e3 he) h
      have hsettle2 : ∀ e ∈ entries, ∃ sv r c,
          entry_to_sheet_row off projects e = Except.ok sv
          ∧ ({ map := m2, append_row := ar2, update_cells := [], added := 0, updated := 0,
               unchanged := 0, summary_weeks := [], summary_months := [] } : SyncState).map
              (e.id : Int) = Option.some (r, c)
          ∧ compare_row sv c = Except.ok [] := hsettle
      obtain ⟨st2, hfold2x, hu2, ha2x, hup2, hun2⟩ :=
        sync_fold_unchanged off projects month entries
          { map := m2, append_row := ar2, update_cells := [], added := 0, updated := 0,
            unchanged := 0, summary_weeks := [], summary_months := [] } hsettle2
      refine ⟨st2, ?_, ?_, ?_, ?_, ?_⟩
      · unfold sync_month
        rw [hfold2]
        simp only [Bind.bind, Except.bind]
        rw [hfold2x]
        simp only []
        have hu2e : st2.update_cells = [] := hu2
        rw [hu2e]
        rfl
      · exact hu2
      · exact ha2x
      · exact hup2
      · have h2 : st2.unchanged = 0 + entries.length := hun2
        omega

/-- Counterexample to the unamended claim C1: a record without a project
is re-staged as an update on every run.  The first run over an empty
sheet appends the record with an empty Project cell; the second run
re-derives that cell as the empty string, which differs from the
canonical None value, so the record lands in the updated bucket (not
unchanged) and one cell write is staged again. -/
theorem C1_idempotence_counterexample :
    (sync_month 0 (fun _ => Option.some "P") 1
        { row_count := 1, cells := fun _ _ => "" }
        [{ id := 100, start := 0, stop := 5400, duration := 5400,
           pid := Option.none, description := "work" }]).bind
      (fun res =>
        (sync_month 0 (fun _ => Option.some "P") 1 res.1
            [{ id := 100, start := 0, stop := 5400, duration := 5400,
               pid := Option.none, description := "work" }]).map
          (fun res2 => (res2.2.updated, res2.2.unchanged, res2.2.update_cells.length))) =
    Except.ok (1, 0, 1) := by
  rfl

/-- Witness for C1: a single valid record with a resolvable non-empty
project name and a non-empty description, run over an empty sheet and
re-run over the written sheet, stages nothing on the second run and
lands in the unchanged bucket. -/
theorem C1_idempotence_witness :
    ∃ sheet1 st1 st2,
      sync_month 0 (fun _ => Option.some "P") 1 { row_count := 1, cells := fun _ _ => "" }
        [{ id := 100, start := 0, stop := 5400, duration := 5400,
           pid := Option.some 7, description := "work" }] = Except.ok (sheet1, st1)
      ∧ sync_month 0 (fun _ => Option.some "P") 1 sheet1
          [{ id := 100, start := 0, stop := 5400, duration := 5400,
             pid := Option.some 7, description := "work" }] = Except.ok (sheet1, st2)
      ∧ st2.update_cells = [] ∧ st2.added = 0 ∧ st2.updated = 0 ∧ st2.unchanged = 1 := by
  cases hx : sync_month 0 (fun _ => Option.some "P") 1 { row_count := 1, cells := fun _ _ => "" }
      [{ id := 100, start := 0, stop := 5400, duration := 5400,
         pid := Option.some 7, description := "work" }] with
  | error msg =>
    exfalso
    have hok : (sync_month 0 (fun _ => Option.some "P") 1
        { row_count := 1, cells := fun _ _ => "" }
        [{ id := 100, start := 0, stop := 5400, duration := 5400,
           pid := Option.some 7, description := "work" }]).isOk = true := by rfl
    rw [hx] at hok
    simp [Except.isOk, Except.toBool] at hok
  | ok p =>
    obtain ⟨sheet1, st1⟩ := p
    obtain ⟨st2, h2, h3, h4, h5, h6⟩ :=
      C1_idempotence 0 (fun _ => Option.some "P") 1
        { row_count := 1, cells := fun _ _ => "" }
        [{ id := 100, start := 0, stop := 5400, duration := 5400,
           pid := Option.some 7, description := "work" }]
        (by decide)
        (by
          intro e he
          rw [List.mem_singleton] at he
          subst he
          exact ⟨"P", rfl, by decide⟩)
        (by
          intro e he
          rw [List.mem_singleton] at he
          subst he
          decide)
        sheet1 st1 hx
    exact ⟨sheet1, st1, st2, rfl, h2, h3, h4, h5, h6⟩

/-! ## Lemmas: watermark loss at a page boundary -/

theorem back_to_back_filter_all (f : Nat → TimeEntry)
    (hstart : ∀ i, (f i).start = i) :
    ((List.range 1001).map f).filter (in_window 0 2000) = (List.range 1001).map f := by
  apply List.filter_eq_self.mpr
  intro te hte
  obtain ⟨i, hi, rfl⟩ := List.mem_map.mp hte
  have hi2 : i < 1001 := List.mem_range.mp hi
  rw [in_window_iff, hstart]
  omega

theorem back_to_back_take (f : Nat → TimeEntry) :
    ((List.range 1001).map f).take 1000 = (List.range 1000).map f := by
  have hmin : (1000 : Nat) ⊓ 1001 = 1000 := by omega
  rw [← List.map_take, List.take_range, hmin]

theorem back_to_back_query1 (f : Nat → TimeEntry)
    (hstart : ∀ i, (f i).start = i) :
    query_window ((List.range 1001).map f) 0 2000 = (List.range 1000).map f := by
  unfold query_window
  rw [back_to_back_filter_all f hstart, show page_cap = 1000 from rfl,
    back_to_back_take f]

theorem back_to_back_max_end (f : Nat → TimeEntry)
    (hstop : ∀ i, (f i).stop = i + 1) :
    max_end ((List.range 1000).map f) = 1000 := by
  apply le_antisymm
  · unfold max_end
    apply (foldl_max_le_iff _ 0 1000).mpr
    refine ⟨by omega, ?_⟩
    intro te hte
    obtain ⟨i, hi, rfl⟩ := List.mem_map.mp hte
    have hi2 : i < 1000 := List.mem_range.mp hi
    rw [hstop]
    omega
  · have hmem : f 999 ∈ (List.range 1000).map f :=
      List.mem_map_of_mem f (List.mem_range.mpr (by omega))
    have h9 := stop_le_max_end _ _ hmem
    rw [hstop] at h9
    omega

theorem back_to_back_query2 (f : Nat → TimeEntry)
    (hstart : ∀ i, (f i).start = i) :
    query_window ((List.range 1001).map f) 1001 2000 = [] := by
  unfold query_window
  have hfn : ((List.range 1001).map f).filter (in_window 1001 2000) = [] := by
    apply List.filter_eq_nil_iff.mpr
    intro te hte
    obtain ⟨i, hi, rfl⟩ := List.mem_map.mp hte
    have hi2 : i < 1001 := List.mem_range.mp hi
    rw [in_window_iff, hstart]
    omega
  rw [hfn]
  rfl

/-- A window of 1001 back-to-back records (record i runs from second i
to second i+1): the first page holds the first 1000, its high-water mark
is 1000 — the start of the 1001st record — so the resumption at 1001
sees an empty page and the run ends having yielded only the first 1000
records, with query trace [0, 1001]. -/
theorem back_to_back_run (f : Nat → TimeEntry)
    (hstart : ∀ i, (f i).start = i) (hstop : ∀ i, (f i).stop = i + 1) :
    get_entries ((List.range 1001).map f) [] Option.none 0 2000 2 =
      Option.some ([0, 1001], (List.range 1000).map f) := by
  have hpass : ∀ (l : List TimeEntry), l.filter (entry_passes [] Option.none) = l :=
    fun l => List.filter_eq_self.mpr (fun a _ => rfl)
  show get_entries ((List.range 1001).map f) [] Option.none 0 2000 (1+1) = _
  rw [get_entries_unfold, back_to_back_query1 f hstart]
  rw [show ((List.range 1000).map f).length = 1000 from by
    rw [List.length_map, List.length_range]]
  rw [if_neg (by decide)]
  rw [back_to_back_max_end f hstop, show (1000 : Nat) + 1 = 1001 from rfl]
  rw [get_entries_unfold, back_to_back_query2 f hstart]
  rw [if_pos (by decide)]
  simp only []
  simp only [hpass]
  rw [List.append_nil]

/-- Counterexample to the unamended claim C3: with ordinary back-to-back
records (each record stopping exactly when the next starts) the
watermark pagination loses a record at a page boundary.  A window
holding 1001 such records fills the first page with the first 1000; the
high-water mark of that page is the start timestamp of the 1001st
record, so the resumption one second past it skips that record: the run
terminates with trace [0, 1001] yielding only the first 1000 records,
and the 1001st record of the window is never yielded. -/
theorem C3_pagination_completeness_counterexample :
    ∃ yield,
      get_entries
        ((List.range 1001).map (fun i =>
          ({ id := i + 1, start := i, stop := i + 1, duration := 1,
             pid := Option.none, description := "" } : TimeEntry)))
        [] Option.none 0 2000 2 = Option.some ([0, 1001], yield)
      ∧ ({ id := 1001, start := 1000, stop := 1001, duration := 1,
           pid := Option.none, description := "" } : TimeEntry) ∈
          ((List.range 1001).map (fun i =>
            ({ id := i + 1, start := i, stop := i + 1, duration := 1,
               pid := Option.none, description := "" } : TimeEntry))).filter
            (in_window 0 2000)
      ∧ ({ id := 1001, start := 1000, stop := 1001, duration := 1,
           pid := Option.none, description := "" } : TimeEntry) ∉ yield := by
  refine ⟨(List.range 1000).map (fun i =>
    ({ id := i + 1, start := i, stop := i + 1, duration := 1,
       pid := Option.none, description := "" } : TimeEntry)), ?_, ?_, ?_⟩
  · exact back_to_back_run _ (fun i => rfl) (fun i => rfl)
  · rw [back_to_back_filter_all _ (fun i => rfl)]
    exact List.mem_map.mpr ⟨1000, List.mem_range.mpr (by omega), rfl⟩
  · intro hmem
    obtain ⟨i, hi, heq⟩ := List.mem_map.mp hmem
    have hi2 : i < 1000 := List.mem_range.mp hi
    have hid2 : i + 1 = 1001 := congrArg TimeEntry.id heq
    omega
